import Mathlib

/-!
Verification development for the widget toolkit and asynchronous directory
tree of the Bubble-Shooter repository (source file `Widgets.py`).

The Python source is shallowly embedded: stateful methods become pure
functions on explicit state records, machine integers become `Int`/`Nat`,
pixel/offset arithmetic that Python performs with `float` division is
carried out in `ℚ`, and code paths that raise exceptions are modelled with
`Option`/`Except` results.  All definitions below are translated from the
source; the theorems at the end of the file settle the specification
claims against them.
-/

/-! ## Directory tree node model (`DirTree`, `DirNode`, `TextNode`)

A `TNode` models one entry of `DirTree.nodes`.  `isDir = true` corresponds
to a `DirNode`, `isDir = false` to a `TextNode` ("Loading..." / "Error"
placeholder).  Fields mirror the attributes used by the tree-mutating
methods: `absPath` (DirNode only), `text` (TextNode display text),
`nestLevel`, the pixel position `x`,`y`, the soft-delete flag `delNode`,
the arrow state `expanded` and the selection flag `selected`. -/
structure TNode where
  isDir : Bool
  absPath : String
  text : String
  nestLevel : Nat
  x : Int
  y : Int
  delNode : Bool
  expanded : Bool
  selected : Bool
deriving DecidableEq, Repr

/-- Default node used by the total index accessor `nd`; never part of a
modelled state (all invariant clauses are guarded by length bounds). -/
def dfltNode : TNode :=
  { isDir := false, absPath := "", text := "", nestLevel := 0, x := 0, y := 0,
    delNode := true, expanded := false, selected := false }

/-- Total index accessor for node lists. -/
def nd (ns : List TNode) (i : Nat) : TNode := ns.getD i dfltNode

/-- A `NodeLoader` background task: its path, the cooperative cancellation
flag (`canceled` Event) and whether the thread is still running
(`is_alive`). -/
structure Loader where
  absPath : String
  canceled : Bool
  alive : Bool
deriving DecidableEq, Repr

/-- State of a `DirTree` as far as the tree-mutating protocol is
concerned: the flattened node sequence, every `NodeLoader` object created
so far (indexed by creation order), the live-task registry
`thread_objs` (path hash ↦ task index), the result queue `pending_nodes`,
the deferred-spawn list `spawn_wait_list`, whether the cache-clean thread
is alive, the selected path and the layout constants. -/
structure DT where
  nodes : List TNode
  tasks : List Loader
  threadObjs : List (String × Nat)
  pendingNodes : List (String × Option (List String))
  spawnWait : List Nat
  cleanThreadAlive : Bool
  selectedPath : String
  entryHeight : Int
  indentX : Int
deriving DecidableEq, Repr

/-- First index satisfying a predicate (helper for `locateNode` and the
collapse walk). -/
def findIdxA (pr : TNode → Bool) : List TNode → Option Nat
  | [] => none
  | n :: rest => if pr n then some 0 else (findIdxA pr rest).map (· + 1)

/-- Association-list lookup for the `thread_objs` dictionary. -/
def lookupK (k : String) (l : List (String × Nat)) : Option Nat :=
  (l.find? (fun kv => kv.1 == k)).map (fun kv => kv.2)

/-- Python dict assignment `thread_objs[key] = value`: any previous
binding of the key is replaced. -/
def dictInsert (k : String) (v : Nat) (l : List (String × Nat)) : List (String × Nat) :=
  (k, v) :: l.filter (fun kv => kv.1 != k)

/-- `DirTree.locate_node_obj`: index of the first `DirNode` whose absolute
path matches, or `none` (Python `-1`) when there is no match or the
matching node is soft-deleted. -/
def locateNode (ns : List TNode) (p : String) : Option Nat :=
  match findIdxA (fun n => n.isDir && n.absPath == p) ns with
  | some i =>
    match ns[i]? with
    | some n => if n.delNode then none else some i
    | none => none
  | none => none

/-- `DirTree.clean_threads`: drop registry entries whose thread is dead or
whose cancellation flag is set. -/
def cleanThreads (s : DT) : DT :=
  { s with threadObjs := s.threadObjs.filter (fun kv =>
      match s.tasks[kv.2]? with
      | some tk => tk.alive && !tk.canceled
      | none => false) }

/-- Set the cancellation `Event` of one loader task. -/
def setCanceled (s : DT) (tid : Nat) : DT :=
  match s.tasks[tid]? with
  | some tk => { s with tasks := s.tasks.set tid { tk with canceled := true } }
  | none => s

/-- Shift the `y` position of every node with index `≥ st` by `d`
(the Python `for n_idx in range(st, len(nodes)): shift_y_pos(d)` loops). -/
def shiftFrom (ns : List TNode) (st : Nat) (d : Int) : List TNode :=
  ns.take st ++ (ns.drop st).map (fun n => { n with y := n.y + d })

/-- Replace the node at one index (used for `change_text` and
`mod_selection_state`). -/
def modifyAt (ns : List TNode) (j : Nat) (f : TNode → TNode) : List TNode :=
  match ns[j]? with
  | some n => ns.set j (f n)
  | none => ns

/-- Soft-delete the contiguous index range `[st, e)` (the marking
performed by the collapse walk). -/
def markRange (ns : List TNode) (st e : Nat) : List TNode :=
  ns.take st ++ ((ns.drop st).take (e - st)).map (fun n => { n with delNode := true })
    ++ ns.drop e

/-- The "Loading..." `TextNode` placeholder inserted directly after the
expanded node. -/
def phNode (parent : TNode) (eh ind : Int) : TNode :=
  { isDir := false, absPath := "", text := "Loading...",
    nestLevel := parent.nestLevel + 1, x := parent.x + ind,
    y := parent.y + eh, delNode := false,
    expanded := false, selected := false }

/-- `DirTree.start_path_loader` with `mode == "expand"`.  Returns the new
state and the boolean result.  `hf` models Python's
`str(hash(abs_path))` used as registry key. -/
def startPathLoaderExpand (hf : String → String) (s0 : DT) (p : String) : DT × Bool :=
  let s := cleanThreads s0
  match locateNode s.nodes p with
  | none => (s, false)
  | some i =>
    let registryLive :=
      match lookupK (hf p) s.threadObjs with
      | some tid =>
        match s.tasks[tid]? with
        | some tk => !tk.canceled
        | none => false
      | none => false
    if registryLive then (s, false)
    else
      match s.nodes[i]? with
      | none => (s, false)
      | some parent =>
        let ns1 := shiftFrom s.nodes (i + 1) s.entryHeight
        let ph := phNode parent s.entryHeight s.indentX
        let ns2 := ns1.take (i + 1) ++ [ph] ++ ns1.drop (i + 1)
        let newTid := s.tasks.length
        let tk : Loader := { absPath := p, canceled := false, alive := true }
        let s1 := { s with nodes := ns2, tasks := s.tasks ++ [tk] }
        if s.cleanThreadAlive then
          ({ s1 with spawnWait := s1.spawnWait ++ [newTid] }, true)
        else
          ({ s1 with threadObjs := dictInsert (hf p) newTid s1.threadObjs }, true)

/-- End of the collapse walk: first index `≥ i+1` whose nest level is
`≤` the parent's, or the list length (the Python `while` condition). -/
def collapseRunEnd (ns : List TNode) (i : Nat) (lvl : Nat) : Nat :=
  match findIdxA (fun n => decide (n.nestLevel ≤ lvl)) (ns.drop (i + 1)) with
  | some k => i + 1 + k
  | none => ns.length

/-- The initial cancellation in the collapse branch: if a registry entry
for the path exists and its flag is clear, set it. -/
def collapseCancelOwn (hf : String → String) (s : DT) (p : String) : DT :=
  match lookupK (hf p) s.threadObjs with
  | some tid =>
    match s.tasks[tid]? with
    | some tk => if !tk.canceled then setCanceled s tid else s
    | none => s
  | none => s

/-- Per-descendant step of the collapse walk: cancel the loader of a
`DirNode` in the collapsed run when one is registered. -/
def cancelDirTask (hf : String → String) (acc : DT) (n : TNode) : DT :=
  if n.isDir then
    match lookupK (hf n.absPath) acc.threadObjs with
    | some tid => setCanceled acc tid
    | none => acc
  else acc

/-- `DirTree.start_path_loader` with `mode == "collapse"`.  The Python
`while` loop interleaves cancelling descendant loaders and setting
`del_node`; since the walk condition only reads nest levels (which the
loop never changes) the walk bound, the cancellation pass and the marking
pass are computed here as three equivalent phases. -/
def startPathLoaderCollapse (hf : String → String) (s0 : DT) (p : String) : DT × Bool :=
  let s := collapseCancelOwn hf (cleanThreads s0) p
  match locateNode s.nodes p with
  | none => (s, false)
  | some i =>
    match s.nodes[i]? with
    | none => (s, false)
    | some parent =>
      let lvl := parent.nestLevel
      let selNode := locateNode s.nodes s.selectedPath
      let e := collapseRunEnd s.nodes i lvl
      let runNodes := (s.nodes.drop (i + 1)).take (e - (i + 1))
      let s := runNodes.foldl (cancelDirTask hf) s
      let ns1 := markRange s.nodes (i + 1) e
      let ns2 := shiftFrom ns1 e ((((i : Int) + 1) - (e : Int)) * s.entryHeight)
      let hit :=
        match selNode with
        | some sn => i + 1 ≤ sn && sn < e
        | none => false
      if hit then
        let ns3 :=
          match locateNode ns2 parent.absPath with
          | some j => modifyAt ns2 j (fun n => { n with selected := true })
          | none => ns2
        ({ s with nodes := ns3, selectedPath := parent.absPath }, true)
      else
        ({ s with nodes := ns2 }, true)

/-- Final step of `DirTree.path_loader_thread`: the scan/cache work has
produced `res` (`none` is the error sentinel); the thread terminates and
publishes the result to `pending_nodes` unless its cancellation flag is
set at this moment.  The cache side effects happen regardless and are not
part of the tree state. -/
def publishOp (s : DT) (tid : Nat) (res : Option (List String)) : DT :=
  match s.tasks[tid]? with
  | none => s
  | some tk =>
    if !tk.alive then s
    else
      let s1 := { s with tasks := s.tasks.set tid { tk with alive := false } }
      if tk.canceled then s1
      else { s1 with pendingNodes := s1.pendingNodes ++ [(tk.absPath, res)] }

/-- A freshly delivered child `DirNode` created by `add_pending_nodes`
(the Python `enumerate(dirs, start=1)` comprehension); `m` is the
zero-based child index. -/
def mkChildNode (parent : TNode) (dp : String) (m : Nat) (eh ind : Int) : TNode :=
  { isDir := true, absPath := dp, text := dp,
    nestLevel := parent.nestLevel + 1,
    x := ((parent.nestLevel : Int) + 1) * ind,
    y := parent.y + ((m : Int) + 1) * eh,
    delNode := false, expanded := false, selected := false }

/-- One iteration of the `add_pending_nodes` drain loop for a popped queue
entry.  When the node after the located parent does not exist the source
raises `IndexError` with the node list untouched; that case is modelled by
returning the unchanged list. -/
def addPendingOne (eh ind : Int) (ns : List TNode) (ent : String × Option (List String)) :
    List TNode :=
  match locateNode ns ent.1 with
  | none => ns
  | some i =>
    match ns[i]? with
    | none => ns
    | some parent =>
      match ns[i + 1]? with
      | none => ns
      | some ln =>
        if ln.isDir then ns
        else
          match ent.2 with
          | none => modifyAt ns (i + 1) (fun n => { n with text := "Error" })
          | some ds =>
            let ns1 := shiftFrom ns (i + 2) (((ds.length : Int) - 1) * eh)
            let children := (List.range ds.length).map
              (fun m => mkChildNode parent (ds.getD m "") m eh ind)
            ns1.take (i + 1) ++ children ++ ns1.drop (i + 2)

/-- `DirTree.add_pending_nodes`: drain every queued loader result in FIFO
order. -/
def addPendingNodes (s : DT) : DT :=
  { s with
    nodes := s.pendingNodes.foldl (addPendingOne s.entryHeight s.indentX) s.nodes,
    pendingNodes := [] }

/-- `DirTree.run_del_nodes`: the background sweep physically removing
soft-deleted nodes. -/
def runDelNodes (s : DT) : DT :=
  { s with nodes := s.nodes.filter (fun n => !n.delNode) }

/-- The operations that can hit the node sequence: user driven
expand/collapse clicks, a loader publishing its result, the per-tick
drain, and the deletion sweep. -/
inductive Act where
  | expand (p : String)
  | collapse (p : String)
  | publish (tid : Nat) (res : Option (List String))
  | drain
  | sweep
deriving DecidableEq, Repr

def applyAct (hf : String → String) (s : DT) (a : Act) : DT :=
  match a with
  | .expand p => (startPathLoaderExpand hf s p).1
  | .collapse p => (startPathLoaderCollapse hf s p).1
  | .publish tid res => publishOp s tid res
  | .drain => addPendingNodes s
  | .sweep => runDelNodes s

def applyActs (hf : String → String) (acts : List Act) (s : DT) : DT :=
  acts.foldl (applyAct hf) s

/-- Initial `DirTree` state: one root `DirNode` at nest level 0,
auto-selected, empty registry and queue. -/
def initDT (rootPath : String) (eh ind : Int) : DT :=
  { nodes := [{ isDir := true, absPath := rootPath, text := rootPath,
                nestLevel := 0, x := 0, y := 0, delNode := false,
                expanded := false, selected := true }],
    tasks := [], threadObjs := [], pendingNodes := [], spawnWait := [],
    cleanThreadAlive := false, selectedPath := rootPath,
    entryHeight := eh, indentX := ind }

/-- Nest levels of the node sequence with soft-deleted nodes treated as
absent. -/
def liveLevels (ns : List TNode) : List Nat :=
  (ns.filter (fun n => !n.delNode)).map (fun n => n.nestLevel)

/-! ## Frame model: content extents and scroll offsets
(`Frame.get_content_width`, `Frame.get_content_height`,
`Frame.add_scroll_offset`, `Frame.set_scroll_offset`)

A `FWidget` models the per-child data these methods read: whether the
child is a `ScrollBar`, its position and the size of its rendered
surface.  Scroll offsets are stored as `ℚ` since Python stores them as
floats after `math.copysign`. -/
structure FWidget where
  isScrollBar : Bool
  x : Int
  y : Int
  imgW : Int
  imgH : Int
deriving DecidableEq, Repr

structure FrameM where
  width : Int
  height : Int
  paddingBottom : Int
  scrollConstant : Int
  xScrollOffset : ℚ
  yScrollOffset : ℚ
  children : List FWidget
deriving DecidableEq, Repr

/-- `Frame.get_content_width`; `none` models the `ValueError` that
`max()` raises on an empty generator (no non-scrollbar children). -/
def getContentWidth (f : FrameM) : Option Int :=
  match (f.children.filter (fun w => !w.isScrollBar)).map (fun w => w.x + w.imgW) with
  | [] => none
  | r :: rs => some (rs.foldl max r + f.paddingBottom)

/-- `Frame.get_content_height`: `(max(w_bottoms) if w_bottoms else 0) +
padding_bottom`. -/
def getContentHeight (f : FrameM) : Int :=
  (match (f.children.filter (fun w => !w.isScrollBar)).map (fun w => w.y + w.imgH) with
   | [] => 0
   | r :: rs => rs.foldl max r) + f.paddingBottom

/-- `amount + math.copysign(scroll_constant, amount)`; `copysign` returns
the positive constant for `amount = 0`. -/
def scrollShift (f : FrameM) (amount : Int) : ℚ :=
  (amount : ℚ) + (if amount < 0 then -(f.scrollConstant : ℚ) else (f.scrollConstant : ℚ))

/-- `Frame.add_scroll_offset` for the vertical axis: add, then clamp
above by 0 and below by `-(content_height - height)`.  Returns the state
and the returned offset. -/
def addScrollOffsetV (f : FrameM) (amount : Int) : FrameM × ℚ :=
  let raw := f.yScrollOffset + scrollShift f amount
  let clamped :=
    if raw > 0 then 0
    else if raw < -(((getContentHeight f) : ℚ) - (f.height : ℚ)) then
      -(((getContentHeight f) : ℚ) - (f.height : ℚ))
    else raw
  ({ f with yScrollOffset := clamped }, clamped)

/-- `Frame.add_scroll_offset` for the horizontal axis.  When the `elif`
clamp evaluates `get_content_width()` on a frame with no non-scrollbar
children, Python raises with the unclamped offset already stored; that
outcome is the `(state, none)` case. -/
def addScrollOffsetH (f : FrameM) (amount : Int) : FrameM × Option ℚ :=
  let raw := f.xScrollOffset + scrollShift f amount
  if raw > 0 then ({ f with xScrollOffset := 0 }, some 0)
  else
    match getContentWidth f with
    | none => ({ f with xScrollOffset := raw }, none)
    | some cw =>
      let clamped :=
        if raw < -((cw : ℚ) - (f.width : ℚ)) then -((cw : ℚ) - (f.width : ℚ)) else raw
      ({ f with xScrollOffset := clamped }, some clamped)

/-- `Frame.set_scroll_offset`. -/
def setScrollOffset (f : FrameM) (off : ℚ) (vertical : Bool) : FrameM :=
  if vertical then { f with yScrollOffset := off } else { f with xScrollOffset := off }

/-! ## Frame model: `add_widget` (claim C8)

`WItem` models the data `Frame.add_widget` reads from a widget: its name,
whether `has_parent()` holds, whether it is a `ScrollBar`, and its rect
centroid.  `FrameReg` models the four child indices the method updates.
`FrameError(widget, 1)` (duplicate name) and `FrameError(widget, 2)`
(already parented) are modelled by the widget name paired with the error
type. -/
structure WItem where
  name : String
  hasParent : Bool
  isScrollBar : Bool
  centerX : Int
  centerY : Int
deriving DecidableEq, Repr

structure FrameReg where
  childWidgets : List (String × WItem)
  realPositions : List (String × Int × Int)
  scrollbarNames : List String
  renderZOrder : List String
deriving DecidableEq, Repr

/-- `Frame.add_widget` for a plain widget (not a `RadioGroup`). -/
def addWidget (f : FrameReg) (w : WItem) : Except (String × Nat) FrameReg :=
  if (f.childWidgets.find? (fun kv => kv.1 == w.name)).isSome then
    Except.error (w.name, 1)
  else if w.hasParent then
    Except.error (w.name, 2)
  else
    Except.ok
      { childWidgets := f.childWidgets ++ [(w.name, { w with hasParent := true })],
        realPositions := f.realPositions ++ [(w.name, w.centerX, w.centerY)],
        scrollbarNames :=
          if w.isScrollBar then f.scrollbarNames ++ [w.name] else f.scrollbarNames,
        renderZOrder := f.renderZOrder ++ [w.name] }

/-! ## ScrollBar geometry (`ScrollBar.update_scrollbar_length`, claim C6)

Thumb lengths are computed with Python float division, modelled in `ℚ`.
`none` models the exceptions the method can raise: the `ValueError` of
`get_content_width` on an empty horizontal frame, and the
`ZeroDivisionError` when the content extent or the view extent is 0. -/
structure SBarM where
  vertical : Bool
  width : Int
  height : Int
  contentHeight : Int
  thumbLength : ℚ
  scrollFactor : Option ℚ
deriving DecidableEq, Repr

/-- `track_length = height - width*2` (vertical) or `width - height*2`. -/
def sbTrackLength (sb : SBarM) : Int :=
  if sb.vertical then sb.height - sb.width * 2 else sb.width - sb.height * 2

/-- The denominator of `cs_ratio`: the scrollbar's own along-axis
length. -/
def sbViewExtent (sb : SBarM) : Int :=
  if sb.vertical then sb.height else sb.width

/-- The content extent the method queries from the parent frame. -/
def sbContentExtent (sb : SBarM) (par : FrameM) : Option Int :=
  if sb.vertical then some (getContentHeight par) else getContentWidth par

/-- The parent's scroll offset on the bar's axis. -/
def offAxis (par : FrameM) (vertical : Bool) : ℚ :=
  if vertical then par.yScrollOffset else par.xScrollOffset

/-- `ScrollBar.update_scrollbar_length`. -/
def updateScrollbarLength (firstRun resize : Bool) (sb : SBarM) (par : FrameM) :
    Option (SBarM × FrameM) :=
  let track := sbTrackLength sb
  match sbContentExtent sb par with
  | none => none
  | some content =>
    if !firstRun && !resize && content == sb.contentHeight then some (sb, par)
    else
      let view := sbViewExtent sb
      if view = 0 || content = 0 then none
      else
        let csRatio : ℚ := (content : ℚ) / (view : ℚ)
        let raw : ℚ := (track : ℚ) / csRatio
        let thumb : ℚ :=
          if raw > (track : ℚ) then (track : ℚ)
          else if raw < 30 then 30 else raw
        let par1 := if thumb = (track : ℚ) then setScrollOffset par 0 sb.vertical else par
        let sd : ℚ := (track : ℚ) - thumb
        let cd : ℚ := (content : ℚ)
          - ((if sb.vertical then par.height else par.width) : ℚ)
        let sf := if sd ≠ 0 ∧ cd ≠ 0 then some (cd / sd) else none
        some ({ sb with contentHeight := content, thumbLength := thumb,
                        scrollFactor := sf }, par1)

/-! ## Pointer occlusion gating (`Mouse.Cursor`, `Frame.update`, claim C7) -/

structure RectI where
  x : Int
  y : Int
  w : Int
  h : Int
deriving DecidableEq, Repr

/-- `pygame.Rect.collidepoint`: inside test excluding right/bottom
edges. -/
def collidepoint (r : RectI) (px py : Int) : Bool :=
  r.x ≤ px && px < r.x + r.w && r.y ≤ py && py < r.y + r.h

/-- `pygame.Rect.colliderect` (used by `pygame.sprite.collide_rect`):
strict area overlap. -/
def collideRect (a b : RectI) : Bool :=
  a.x < b.x + b.w && b.x < a.x + a.w && a.y < b.y + b.h && b.y < a.y + a.h

/-- State of a `Mouse.Cursor` relevant to occlusion: position, the shared
occlusion-depth counter `z_index`, and the `leave` flag.  Its collision
rect is 1×1 at its position. -/
structure CursorM where
  x : Int
  y : Int
  zIndex : Nat
  leave : Bool
deriving DecidableEq, Repr

def cursorRect (m : CursorM) : RectI := { x := m.x, y := m.y, w := 1, h := 1 }

/-- `Cursor.set_pos`: ignored while the cursor has left the window. -/
def cursorSetPos (m : CursorM) (nx ny : Int) : CursorM :=
  if m.leave then m else { m with x := nx, y := ny }

/-- `Cursor.mouse_leave` (position is set before the flag). -/
def mouseLeaveC (m : CursorM) : CursorM :=
  let m1 := cursorSetPos m (-1) (-1)
  { m1 with leave := true }

/-- `Mouse.Cursor()` freshly constructed and immediately
`mouse_leave()`d — the dummy handed to children of a non-live frame. -/
def dummyCursor : CursorM := mouseLeaveC { x := 0, y := 0, zIndex := 1, leave := false }

/-- Per-child data `Frame.update` reads for hit testing (children without
a `mask` attribute, so `collide_rect` applies). -/
structure FChild where
  rect : RectI
  isScrollBar : Bool
deriving DecidableEq, Repr

structure FrameC where
  x : Int
  y : Int
  rect : RectI
  zIndex : Nat
  xScrollOffset : Int
  yScrollOffset : Int
  children : List FChild
deriving DecidableEq, Repr

/-- The hit-test/occlusion skeleton of `Frame.update`: computes the
pointer's occlusion-depth counter after the call and the aggregated
`collide` flag.  Scrollbars are hit-tested first with the unscrolled
relative pointer (`mouse_colliding`, a point test); all children are then
rect-tested against the scroll-translated pointer, which is a dummy when
the frame is not live or a scrollbar blocked the pointer. -/
def frameUpdateC (f : FrameC) (m : CursorM) : Nat × Bool :=
  let pointerEvents := f.zIndex == m.zIndex && collidepoint f.rect m.x m.y
  let scrolledRel :=
    if pointerEvents then
      cursorSetPos m (m.x - f.x - f.xScrollOffset) (m.y - f.y - f.yScrollOffset)
    else dummyCursor
  let relMouse :=
    if f.zIndex == m.zIndex then cursorSetPos m (m.x - f.x) (m.y - f.y)
    else dummyCursor
  let mouseBlocked := (f.children.filter (fun c => c.isScrollBar)).any
    (fun c => collidepoint c.rect relMouse.x relMouse.y)
  let scrolled2 := if mouseBlocked then mouseLeaveC scrolledRel else scrolledRel
  let collide := f.children.foldl
    (fun acc c => acc || collideRect c.rect (cursorRect scrolled2)) mouseBlocked
  (if pointerEvents && !collide then m.zIndex + 1 else m.zIndex, collide)

/-- The clean reading of "some child reported a collision": a scrollbar
point-hit by the relative pointer, or (no scrollbar block and) a child
rect-hit by the scroll-translated live pointer. -/
def childReported (f : FrameC) (m : CursorM) : Prop :=
  (∃ c ∈ f.children, c.isScrollBar = true ∧
     collidepoint c.rect (m.x - f.x) (m.y - f.y) = true) ∨
  ((∀ c ∈ f.children, c.isScrollBar = true →
     collidepoint c.rect (m.x - f.x) (m.y - f.y) = false) ∧
   ∃ c ∈ f.children,
     collideRect c.rect
       (cursorRect (cursorSetPos m (m.x - f.x - f.xScrollOffset)
                      (m.y - f.y - f.yScrollOffset))) = true)

/-- "The frame is live": its z level equals the pointer's occlusion
counter and its bounds contain the pointer. -/
def frameLive (f : FrameC) (m : CursorM) : Prop :=
  f.zIndex = m.zIndex ∧ collidepoint f.rect m.x m.y = true

/-! ## Directory cache files (`scan_dir_gen_cache`, `load_from_cache`,
claim C9)

A cache file is modelled at row granularity: a list of
`(filetype, path)` rows, the first being the `csv.DictWriter` header. -/

inductive FKind where
  | file
  | directory
  | other
deriving DecidableEq, Repr

/-- The row/directory accumulation of the `os.scandir` loop in
`scan_dir_gen_cache`: each child is classified, `other` entries are
skipped, directory paths are collected in scan order. -/
def scanRows : List (String × FKind) → List (String × String) × List String
  | [] => ([], [])
  | (p, t) :: rest =>
    let acc := scanRows rest
    match t with
    | .directory => (("directory", p) :: acc.1, p :: acc.2)
    | .file => (("file", p) :: acc.1, acc.2)
    | .other => acc

/-- `DirTree.scan_dir_gen_cache` on a successfully scanned directory
listing: the written cache rows (header first) and the returned directory
list. -/
def scanDirGenCache (listing : List (String × FKind)) :
    List (String × String) × List String :=
  (("filetype", "path") :: (scanRows listing).1, (scanRows listing).2)

/-- `DirTree.load_from_cache` on the parsed rows of a cache file: skip
the header (`next(reader)`; an empty file raises `StopIteration`, the
`(false, [])` case), then keep the paths of `"directory"` rows in file
order. -/
def loadFromCache (rows : List (String × String)) : Bool × List String :=
  match rows with
  | [] => (false, [])
  | _ :: rest =>
    (true, rest.filterMap (fun r => if r.1 = "directory" then some r.2 else none))

/-! ### Concrete fixtures used by witnesses -/

/-- A root in "expanding" state: root, its "Loading..." placeholder, and
one later sibling-level node. -/
def c2root : TNode :=
  { isDir := true, absPath := "/", text := "/", nestLevel := 0, x := 0, y := 0,
    delNode := false, expanded := true, selected := true }

def c2ph : TNode :=
  { isDir := false, absPath := "", text := "Loading...", nestLevel := 1, x := 20,
    y := 10, delNode := false, expanded := false, selected := false }

def c2sib : TNode :=
  { isDir := true, absPath := "/z", text := "/z", nestLevel := 1, x := 20, y := 20,
    delNode := false, expanded := false, selected := false }

def c2ns : List TNode := [c2root, c2ph, c2sib]

/-- A state whose root is expanding: placeholder present, loader for
"/" registered, alive and not cancelled. -/
def c4s : DT :=
  { nodes := [c2root, c2ph],
    tasks := [{ absPath := "/", canceled := false, alive := true }],
    threadObjs := [("/", 0)], pendingNodes := [], spawnWait := [],
    cleanThreadAlive := false, selectedPath := "/", entryHeight := 10,
    indentX := 20 }

/-- A frame whose single child ends at `y = 50`, giving a content height
(50) smaller than the view height (100). -/
def c5f : FrameM :=
  { width := 100, height := 100, paddingBottom := 0, scrollConstant := 20,
    xScrollOffset := 0, yScrollOffset := 0,
    children := [{ isScrollBar := false, x := 0, y := 0, imgW := 50, imgH := 50 }] }

/-- A frame containing only a scrollbar child. -/
def c10f : FrameM :=
  { width := 100, height := 100, paddingBottom := 7, scrollConstant := 20,
    xScrollOffset := 0, yScrollOffset := 0,
    children := [{ isScrollBar := true, x := 80, y := 0, imgW := 20, imgH := 100 }] }

def c8f : FrameReg :=
  { childWidgets := [], realPositions := [], scrollbarNames := [], renderZOrder := [] }

def c8w : WItem :=
  { name := "btn", hasParent := false, isScrollBar := false, centerX := 5, centerY := 6 }

/-- A vertical scrollbar 20×100 whose stored content height is stale. -/
def c6sb : SBarM :=
  { vertical := true, width := 20, height := 100, contentHeight := 0,
    thumbLength := 0, scrollFactor := none }

/-- A parent frame of content height 200 (child bottom 190 + padding 10). -/
def c6par : FrameM :=
  { width := 100, height := 100, paddingBottom := 10, scrollConstant := 20,
    xScrollOffset := 0, yScrollOffset := 0,
    children := [{ isScrollBar := false, x := 0, y := 0, imgW := 50, imgH := 190 }] }

/-- The scrollbar state `update_scrollbar_length` produces from `c6sb`
on `c6par`: track 60, ratio 2, raw thumb 30 (already ≥ 30). -/
def c6sb2 : SBarM :=
  { vertical := true, width := 20, height := 100, contentHeight := 200,
    thumbLength := 30, scrollFactor := some (10 / 3) }

def c7child : FChild :=
  { rect := { x := 0, y := 0, w := 100, h := 100 }, isScrollBar := false }

/-- Lower stacked frame at z-level 1, full-window, one full-size child. -/
def c7f1 : FrameC :=
  { x := 0, y := 0, rect := { x := 0, y := 0, w := 100, h := 100 }, zIndex := 1,
    xScrollOffset := 0, yScrollOffset := 0, children := [c7child] }

/-- Fully overlapping frame stacked at z-level 2. -/
def c7f2 : FrameC :=
  { x := 0, y := 0, rect := { x := 0, y := 0, w := 100, h := 100 }, zIndex := 2,
    xScrollOffset := 0, yScrollOffset := 0, children := [c7child] }

/-- A pointer inside the overlap, occlusion counter at its initial 1. -/
def c7m : CursorM := { x := 10, y := 10, zIndex := 1, leave := false }

/-! ## The pre-order flattening invariant (claim C1)

`TreeInv ns` is the inductive strengthening proved to hold for every
reachable node sequence.  `step` says nest levels climb by at most one
per entry; `par` says every node of positive level has a *full parent* —
the nearest earlier entry of level one less — which is a `DirNode` and,
whenever the node itself is live, is live as well.  The claims about the
live projection (`liveLevels`) follow from `TreeInv`. -/

/-- Shape projection: the three fields the invariant depends on. -/
def sk (n : TNode) : Nat × Bool × Bool := (n.nestLevel, n.delNode, n.isDir)

structure TreeInv (ns : List TNode) : Prop where
  ne : ns ≠ []
  root0 : (nd ns 0).nestLevel = 0
  rootLive : (nd ns 0).delNode = false
  rootDir : (nd ns 0).isDir = true
  pos : ∀ i, 0 < i → i < ns.length → 1 ≤ (nd ns i).nestLevel
  step : ∀ i, i + 1 < ns.length → (nd ns (i + 1)).nestLevel ≤ (nd ns i).nestLevel + 1
  par : ∀ j, j < ns.length → 1 ≤ (nd ns j).nestLevel →
    ∃ i, i < j ∧ (nd ns i).nestLevel + 1 = (nd ns j).nestLevel ∧
      (nd ns i).isDir = true ∧
      ((nd ns j).delNode = false → (nd ns i).delNode = false) ∧
      (∀ k, i < k → k < j → (nd ns j).nestLevel ≤ (nd ns k).nestLevel)

/-! ### Index toolkit -/

theorem nd_eq_getElem (ns : List TNode) (i : Nat) : nd ns i = (ns[i]?).getD dfltNode := by
  simp [nd, List.getD_eq_getElem?_getD]

theorem nd_of_getElem {ns : List TNode} {i : Nat} {n : TNode} (h : ns[i]? = some n) :
    nd ns i = n := by
  rw [nd_eq_getElem, h]; rfl

theorem nd_append_left {A : List TNode} (B : List TNode) {i : Nat} (h : i < A.length) :
    nd (A ++ B) i = nd A i := by
  rw [nd_eq_getElem, nd_eq_getElem, List.getElem?_append, if_pos h]

theorem nd_append_right {A : List TNode} (B : List TNode) {i : Nat} (h : A.length ≤ i) :
    nd (A ++ B) i = nd B (i - A.length) := by
  rw [nd_eq_getElem, nd_eq_getElem, List.getElem?_append, if_neg (by omega)]

theorem nd_take {ns : List TNode} {st j : Nat} (h : j < st) :
    nd (ns.take st) j = nd ns j := by
  rw [nd_eq_getElem, nd_eq_getElem, List.getElem?_take, if_pos h]

theorem nd_drop (ns : List TNode) (st k : Nat) :
    nd (ns.drop st) k = nd ns (st + k) := by
  rw [nd_eq_getElem, nd_eq_getElem, List.getElem?_drop]

theorem nd_oob {ns : List TNode} {i : Nat} (h : ns.length ≤ i) : nd ns i = dfltNode := by
  rw [nd_eq_getElem, List.getElem?_eq_none h]; rfl

/-- Transfer `TreeInv` along a pointwise shape-equal list of the same
length. -/
theorem treeInv_of_sk_eq {ns ms : List TNode} (hl : ns.length = ms.length)
    (hsk : ∀ i, i < ns.length → sk (nd ns i) = sk (nd ms i)) (hI : TreeInv ns) :
    TreeInv ms := by
  have hlen0 : 0 < ns.length := by
    cases ns with
    | nil => exact absurd rfl hI.ne
    | cons a l => simp
  have skL : ∀ i, i < ns.length → (nd ms i).nestLevel = (nd ns i).nestLevel := by
    intro i hi; have := hsk i hi; simp [sk, Prod.ext_iff] at this; omega
  have skD : ∀ i, i < ns.length → (nd ms i).delNode = (nd ns i).delNode := by
    intro i hi; have := hsk i hi; simp [sk, Prod.ext_iff] at this; tauto
  have skR : ∀ i, i < ns.length → (nd ms i).isDir = (nd ns i).isDir := by
    intro i hi; have := hsk i hi; simp [sk, Prod.ext_iff] at this; tauto
  refine ⟨?_, ?_, ?_, ?_, ?_, ?_, ?_⟩
  · intro h; rw [h] at hl; simp at hl
    exact hI.ne hl
  · rw [skL 0 hlen0]; exact hI.root0
  · rw [skD 0 hlen0]; exact hI.rootLive
  · rw [skR 0 hlen0]; exact hI.rootDir
  · intro i h0 hi; rw [← hl] at hi; rw [skL i hi]; exact hI.pos i h0 hi
  · intro i hi; rw [← hl] at hi
    rw [skL (i + 1) hi, skL i (by omega)]; exact hI.step i hi
  · intro j hj hlv; rw [← hl] at hj
    rw [skL j hj] at hlv
    obtain ⟨i, hij, hlvl, hdir, hlive, hbetween⟩ := hI.par j hj hlv
    refine ⟨i, hij, ?_, ?_, ?_, ?_⟩
    · rw [skL i (by omega), skL j hj]; exact hlvl
    · rw [skR i (by omega)]; exact hdir
    · rw [skD i (by omega), skD j hj]; exact hlive
    · intro k hik hkj; rw [skL j hj, skL k (by omega)]
      exact hbetween k hik hkj

/-- Surgery preservation: replacing the segment `M` (empty, or one
`TextNode`) that directly follows a live `DirNode` `p` (the last entry of
`A`) by any run `C` of live nodes at level `p.nestLevel + 1` preserves the
invariant.  Instantiated by the placeholder insertion of
`start_path_loader` (`M = []`, `C = [placeholder]`) and the child splice
of `add_pending_nodes` (`M = [placeholder]`, `C` the children). -/
theorem treeInv_replace (A M C B : List TNode) (p : TNode)
    (hA : 0 < A.length)
    (hp : nd A (A.length - 1) = p)
    (hpLive : p.delNode = false)
    (hpDir : p.isDir = true)
    (hM : M = [] ∨ ∃ T, M = [T] ∧ T.isDir = false)
    (hC : ∀ c ∈ C, c.delNode = false ∧ c.nestLevel = p.nestLevel + 1)
    (hI : TreeInv (A ++ (M ++ B))) : TreeInv (A ++ (C ++ B)) := by
  have hm01 : M.length ≤ 1 := by
    rcases hM with h | ⟨T, hT, _⟩
    · simp [h]
    · simp [hT]
  have hMdir : ∀ _ : M.length = 1, (nd M 0).isDir = false := by
    intro hm
    rcases hM with h | ⟨T, hT, hTd⟩
    · rw [h] at hm; simp at hm
    · rw [hT]; simpa [nd] using hTd
  have lenO : (A ++ (M ++ B)).length = A.length + M.length + B.length := by
    simp; omega
  have lenN : (A ++ (C ++ B)).length = A.length + C.length + B.length := by
    simp; omega
  have ndOA : ∀ {j : Nat}, j < A.length → nd (A ++ (M ++ B)) j = nd A j := by
    intro j h; exact nd_append_left _ h
  have ndNA : ∀ {j : Nat}, j < A.length → nd (A ++ (C ++ B)) j = nd A j := by
    intro j h; exact nd_append_left _ h
  have ndOB : ∀ t : Nat, nd (A ++ (M ++ B)) (A.length + M.length + t) = nd B t := by
    intro t
    rw [nd_append_right _ (by omega), nd_append_right _ (by omega)]
    congr 1; omega
  have ndNB : ∀ t : Nat, nd (A ++ (C ++ B)) (A.length + C.length + t) = nd B t := by
    intro t
    rw [nd_append_right _ (by omega), nd_append_right _ (by omega)]
    congr 1; omega
  have ndNC : ∀ t : Nat, t < C.length → nd (A ++ (C ++ B)) (A.length + t) = nd C t := by
    intro t ht
    rw [nd_append_right _ (by omega)]
    have e : A.length + t - A.length = t := by omega
    rw [e]; exact nd_append_left _ ht
  have ndOM : ∀ _ : M.length = 1, nd (A ++ (M ++ B)) A.length = nd M 0 := by
    intro hm
    rw [nd_append_right _ (le_refl _)]
    have e : A.length - A.length = 0 := by omega
    rw [e]; exact nd_append_left _ (by omega)
  have hpO : nd (A ++ (M ++ B)) (A.length - 1) = p := by
    rw [ndOA (by omega)]; exact hp
  have hpN : nd (A ++ (C ++ B)) (A.length - 1) = p := by
    rw [ndNA (by omega)]; exact hp
  have hCk : ∀ t, t < C.length →
      (nd C t).delNode = false ∧ (nd C t).nestLevel = p.nestLevel + 1 := by
    intro t ht
    have hmem : C[t] ∈ C := List.getElem_mem ht
    have := hC _ hmem
    rwa [nd_eq_getElem, List.getElem?_eq_getElem ht, Option.getD_some]
  -- the key bound: the entry of `B` that directly follows `p ++ M` has
  -- level at most `p.nestLevel + 1` even when `M` is a placeholder
  have hB0 : 0 < B.length → (nd B 0).nestLevel ≤ p.nestLevel + 1 := by
    intro hBlen
    rcases Nat.eq_or_lt_of_le hm01 with hm | hm0
    · have hstepT : (nd (A ++ (M ++ B)) A.length).nestLevel ≤ p.nestLevel + 1 := by
        have h := hI.step (A.length - 1) (by omega)
        have e : A.length - 1 + 1 = A.length := by omega
        rw [e, hpO] at h; exact h
      have hstepB : (nd B 0).nestLevel ≤ (nd (A ++ (M ++ B)) A.length).nestLevel + 1 := by
        have h := hI.step A.length (by omega)
        have e : A.length + 1 = A.length + M.length + 0 := by omega
        rw [e, ndOB 0] at h; exact h
      by_cases hEq : (nd B 0).nestLevel = p.nestLevel + 2
      · -- impossible: the full parent of that entry would have to be the
        -- placeholder (not a DirNode) or sit at level `p.nestLevel`
        exfalso
        have hj : A.length + 1 < (A ++ (M ++ B)).length := by omega
        have hjB : nd (A ++ (M ++ B)) (A.length + 1) = nd B 0 := by
          have e : A.length + 1 = A.length + M.length + 0 := by omega
          rw [e, ndOB 0]
        obtain ⟨i0, hi0lt, hi0lvl, hi0dir, _, hi0btw⟩ :=
          hI.par (A.length + 1) hj (by rw [hjB]; omega)
        rw [hjB] at hi0lvl hi0btw
        rcases Nat.lt_or_ge i0 (A.length - 1) with hcase | hcase
        · have := hi0btw (A.length - 1) (by omega) (by omega)
          rw [hpO] at this; omega
        · rcases Nat.eq_or_lt_of_le hcase with hcase2 | hcase2
          · rw [← hcase2, hpO] at hi0lvl; omega
          · have hi0a : i0 = A.length := by omega
            rw [hi0a, ndOM hm, hMdir hm] at hi0dir
            simp at hi0dir
      · omega
    · have hm : M.length = 0 := by omega
      have h := hI.step (A.length - 1) (by omega)
      have e1 : A.length - 1 + 1 = A.length + M.length + 0 := by omega
      rw [e1, ndOB 0, hpO] at h
      omega
  refine ⟨?_, ?_, ?_, ?_, ?_, ?_, ?_⟩
  · intro h
    have : (A ++ (C ++ B)).length = 0 := by rw [h]; rfl
    omega
  · rw [ndNA hA, ← ndOA hA]; exact hI.root0
  · rw [ndNA hA, ← ndOA hA]; exact hI.rootLive
  · rw [ndNA hA, ← ndOA hA]; exact hI.rootDir
  · -- pos
    intro i h0 hi
    rw [lenN] at hi
    rcases Nat.lt_or_ge i A.length with hia | hia
    · rw [ndNA hia, ← ndOA hia]
      exact hI.pos i h0 (by omega)
    · rcases Nat.lt_or_ge i (A.length + C.length) with hic | hic
      · obtain ⟨t, rfl⟩ : ∃ t, i = A.length + t := ⟨i - A.length, by omega⟩
        rw [ndNC t (by omega)]
        have := (hCk t (by omega)).2
        omega
      · obtain ⟨t, rfl⟩ : ∃ t, i = A.length + C.length + t :=
          ⟨i - (A.length + C.length), by omega⟩
        rw [ndNB t, ← ndOB t]
        exact hI.pos (A.length + M.length + t) (by omega) (by omega)
  · -- step
    intro i hi
    rw [lenN] at hi
    by_cases h1 : i + 1 < A.length
    · rw [ndNA h1, ndNA (by omega), ← ndOA h1, ← ndOA (by omega)]
      exact hI.step i (by omega)
    · by_cases h2 : i + 1 = A.length
      · have hieq : i = A.length - 1 := by omega
        rcases Nat.eq_zero_or_pos C.length with hc0 | hc0
        · have e : i + 1 = A.length + C.length + 0 := by omega
          rw [e, ndNB 0, hieq, hpN]
          exact hB0 (by omega)
        · have e : i + 1 = A.length + 0 := by omega
          rw [e, ndNC 0 hc0, hieq, hpN]
          have := (hCk 0 hc0).2
          omega
      · by_cases h3 : i + 1 < A.length + C.length
        · -- both inside C
          obtain ⟨t, rfl⟩ : ∃ t, i = A.length + t := ⟨i - A.length, by omega⟩
          have e : A.length + t + 1 = A.length + (t + 1) := by omega
          rw [e, ndNC (t + 1) (by omega), ndNC t (by omega)]
          have h4 := (hCk t (by omega)).2
          have h5 := (hCk (t + 1) (by omega)).2
          omega
        · by_cases h4 : i + 1 = A.length + C.length
          · -- junction C → B with C nonempty
            have hc0 : 0 < C.length := by omega
            obtain ⟨t, rfl⟩ : ∃ t, i = A.length + t := ⟨i - A.length, by omega⟩
            have e : A.length + t + 1 = A.length + C.length + 0 := by omega
            rw [e, ndNB 0, ndNC t (by omega)]
            have h5 := (hCk t (by omega)).2
            have h6 := hB0 (by omega)
            omega
          · -- both inside B
            obtain ⟨t, rfl⟩ : ∃ t, i = A.length + C.length + t :=
              ⟨i - (A.length + C.length), by omega⟩
            have e : A.length + C.length + t + 1 = A.length + C.length + (t + 1) := by omega
            rw [e, ndNB (t + 1), ndNB t, ← ndOB (t + 1), ← ndOB t]
            have h5 := hI.step (A.length + M.length + t) (by omega)
            have e2 : A.length + M.length + t + 1 = A.length + M.length + (t + 1) := by omega
            rw [e2] at h5; exact h5
  · -- par
    intro j hj hlv
    rw [lenN] at hj
    rcases Nat.lt_or_ge j A.length with hja | hja
    · -- j inside A: transfer the old witness unchanged
      rw [ndNA hja] at hlv ⊢
      obtain ⟨i0, hi0lt, hi0lvl, hi0dir, hi0live, hi0btw⟩ :=
        hI.par j (by omega) (by rw [ndOA hja]; exact hlv)
      rw [ndOA hja] at hi0lvl hi0live hi0btw
      rw [ndOA (by omega : i0 < A.length)] at hi0lvl hi0dir hi0live
      refine ⟨i0, hi0lt, ?_, ?_, ?_, ?_⟩
      · rw [ndNA (by omega)]; exact hi0lvl
      · rw [ndNA (by omega)]; exact hi0dir
      · rw [ndNA (by omega)]; exact hi0live
      · intro k hik hkj
        rw [ndNA (by omega)]
        have := hi0btw k hik hkj
        rwa [ndOA (by omega)] at this
    · rcases Nat.lt_or_ge j (A.length + C.length) with hjc | hjc
      · -- j inside C: witness is p at index A.length - 1
        obtain ⟨t, rfl⟩ : ∃ t, j = A.length + t := ⟨j - A.length, by omega⟩
        rw [ndNC t (by omega)] at hlv ⊢
        refine ⟨A.length - 1, by omega, ?_, ?_, ?_, ?_⟩
        · rw [hpN, (hCk t (by omega)).2]
        · rw [hpN]; exact hpDir
        · intro _; rw [hpN]; exact hpLive
        · intro k hk1 hk2
          obtain ⟨u, rfl⟩ : ∃ u, k = A.length + u := ⟨k - A.length, by omega⟩
          rw [ndNC u (by omega), (hCk t (by omega)).2, (hCk u (by omega)).2]
      · -- j inside B
        obtain ⟨t, rfl⟩ : ∃ t, j = A.length + C.length + t :=
          ⟨j - (A.length + C.length), by omega⟩
        rw [ndNB t] at hlv ⊢
        have hjO : A.length + M.length + t < (A ++ (M ++ B)).length := by omega
        obtain ⟨i0, hi0lt, hi0lvl, hi0dir, hi0live, hi0btw⟩ :=
          hI.par (A.length + M.length + t) hjO (by rw [ndOB t]; exact hlv)
        rw [ndOB t] at hi0lvl hi0live hi0btw
        rcases Nat.lt_or_ge i0 A.length with hi0a | hi0a
        · -- old witness inside A: keep it
          rw [ndOA hi0a] at hi0lvl hi0dir hi0live
          refine ⟨i0, by omega, ?_, ?_, ?_, ?_⟩
          · rw [ndNA hi0a]; exact hi0lvl
          · rw [ndNA hi0a]; exact hi0dir
          · rw [ndNA hi0a]; exact hi0live
          · -- the in-between condition across the three zones
            have hled : (nd B t).nestLevel ≤ p.nestLevel + 1 := by
              rcases Nat.lt_or_ge i0 (A.length - 1) with hc | hc
              · have := hi0btw (A.length - 1) (by omega) (by omega)
                rw [hpO] at this; omega
              · have he : i0 = A.length - 1 := by omega
                rw [he, hp] at hi0lvl; omega
            intro k hik hkj
            rcases Nat.lt_or_ge k A.length with hka | hka
            · rw [ndNA hka]
              have := hi0btw k hik (by omega)
              rwa [ndOA hka] at this
            · rcases Nat.lt_or_ge k (A.length + C.length) with hkc | hkc
              · obtain ⟨u, rfl⟩ : ∃ u, k = A.length + u := ⟨k - A.length, by omega⟩
                rw [ndNC u (by omega), (hCk u (by omega)).2]
                exact hled
              · obtain ⟨u, rfl⟩ : ∃ u, k = A.length + C.length + u :=
                  ⟨k - (A.length + C.length), by omega⟩
                rw [ndNB u, ← ndOB u]
                exact hi0btw (A.length + M.length + u) (by omega) (by omega)
        · -- old witness inside M impossible (placeholder is no DirNode);
          -- old witness inside B transfers with shifted index
          rcases Nat.lt_or_ge i0 (A.length + M.length) with hi0m | hi0m
          · exfalso
            have hm : M.length = 1 := by omega
            have he : i0 = A.length := by omega
            rw [he, ndOM hm, hMdir hm] at hi0dir
            simp at hi0dir
          · obtain ⟨u, rfl⟩ : ∃ u, i0 = A.length + M.length + u :=
              ⟨i0 - (A.length + M.length), by omega⟩
            rw [ndOB u] at hi0lvl hi0dir hi0live
            refine ⟨A.length + C.length + u, by omega, ?_, ?_, ?_, ?_⟩
            · rw [ndNB u]; exact hi0lvl
            · rw [ndNB u]; exact hi0dir
            · rw [ndNB u]; exact hi0live
            · intro k hik hkj
              obtain ⟨v, rfl⟩ : ∃ v, k = A.length + C.length + v :=
                ⟨k - (A.length + C.length), by omega⟩
              rw [ndNB v, ← ndOB v]
              exact hi0btw (A.length + M.length + v) (by omega) (by omega)

/-! ### Accessor lemmas for the list surgeries -/

theorem length_shiftFrom (ns : List TNode) (st : Nat) (d : Int) :
    (shiftFrom ns st d).length = ns.length := by
  simp [shiftFrom]; omega

theorem nd_shiftFrom (ns : List TNode) (st : Nat) (d : Int) (i : Nat) :
    nd (shiftFrom ns st d) i =
      if st ≤ i ∧ i < ns.length then
        { nd ns i with y := (nd ns i).y + d }
      else nd ns i := by
  unfold shiftFrom
  by_cases hi : i < ns.length
  · by_cases hst : i < st
    · rw [nd_append_left _ (by simp [List.length_take]; omega), nd_take hst,
        if_neg (by omega)]
    · have hstl : st ≤ ns.length := by omega
      rw [nd_append_right _ (by simp [List.length_take]; omega), if_pos ⟨by omega, hi⟩]
      have e : i - (ns.take st).length = i - st := by simp [List.length_take]; omega
      rw [e, nd_eq_getElem, List.getElem?_map, List.getElem?_drop]
      have e2 : st + (i - st) = i := by omega
      rw [e2, List.getElem?_eq_getElem hi]
      simp [nd_eq_getElem, List.getElem?_eq_getElem hi]
  · rw [if_neg (by omega), nd_oob (by simp; omega), nd_oob (by omega)]

theorem sk_shiftFrom (ns : List TNode) (st : Nat) (d : Int) (i : Nat) :
    sk (nd (shiftFrom ns st d) i) = sk (nd ns i) := by
  rw [nd_shiftFrom]
  by_cases h : st ≤ i ∧ i < ns.length
  · rw [if_pos h]; rfl
  · rw [if_neg h]

theorem treeInv_shiftFrom {ns : List TNode} (st : Nat) (d : Int) (hI : TreeInv ns) :
    TreeInv (shiftFrom ns st d) :=
  treeInv_of_sk_eq (length_shiftFrom ns st d).symm
    (fun i _ => (sk_shiftFrom ns st d i).symm) hI

theorem length_modifyAt (ns : List TNode) (j : Nat) (f : TNode → TNode) :
    (modifyAt ns j f).length = ns.length := by
  unfold modifyAt
  cases h : ns[j]? with
  | none => rfl
  | some n => simp

theorem nd_modifyAt (ns : List TNode) (j : Nat) (f : TNode → TNode) (k : Nat) :
    nd (modifyAt ns j f) k =
      if k = j ∧ j < ns.length then f (nd ns j) else nd ns k := by
  unfold modifyAt
  cases h : ns[j]? with
  | none =>
    have hj : ns.length ≤ j := by
      by_contra hc
      rw [List.getElem?_eq_getElem (by omega)] at h
      exact Option.noConfusion h
    rw [if_neg (by omega)]
  | some n =>
    have hj : j < ns.length := by
      by_contra hc
      rw [List.getElem?_eq_none (by omega)] at h
      exact Option.noConfusion h
    by_cases hk : k = j
    · subst hk
      rw [if_pos ⟨rfl, hj⟩, nd_eq_getElem, List.getElem?_set, if_pos rfl, if_pos hj,
        Option.getD_some, nd_of_getElem h]
    · rw [if_neg (by tauto), nd_eq_getElem, List.getElem?_set, if_neg (by omega),
        ← nd_eq_getElem]

theorem length_markRange (ns : List TNode) (st e : Nat) (hse : st ≤ e)
    (he : e ≤ ns.length) : (markRange ns st e).length = ns.length := by
  simp [markRange]; omega

theorem nd_markRange (ns : List TNode) (st e : Nat) (hse : st ≤ e) (he : e ≤ ns.length)
    (j : Nat) :
    nd (markRange ns st e) j =
      if st ≤ j ∧ j < e then { nd ns j with delNode := true } else nd ns j := by
  unfold markRange
  have hstl : st ≤ ns.length := by omega
  have lenX : (ns.take st).length = st := by simp [List.length_take]; omega
  have lenY : (((ns.drop st).take (e - st)).map
      (fun n => { n with delNode := true })).length = e - st := by
    simp [List.length_take, List.length_drop]; omega
  by_cases h1 : j < st
  · rw [nd_append_left _ (by simp [lenX, lenY]; omega)]
    rw [nd_append_left _ (by omega), nd_take h1, if_neg (by omega)]
  · by_cases h2 : j < e
    · rw [nd_append_left _ (by simp [lenX, lenY]; omega)]
      rw [nd_append_right _ (by omega), if_pos ⟨by omega, h2⟩, lenX]
      rw [nd_eq_getElem, List.getElem?_map, List.getElem?_take, if_pos (by omega),
        List.getElem?_drop]
      have e2 : st + (j - st) = j := by omega
      rw [e2]
      cases hj : ns[j]? with
      | none =>
        have : ns.length ≤ j := by
          by_contra hc
          rw [List.getElem?_eq_getElem (by omega)] at hj
          exact Option.noConfusion hj
        omega
      | some n => simp [nd_of_getElem hj]
    · rw [nd_append_right _ (by simp [lenX, lenY]; omega), if_neg (by omega),
        List.length_append, lenX, lenY, nd_drop]
      congr 1
      omega

/-- Marking preservation: soft-deleting a contiguous run of
strictly-deeper nodes after index `i` (the collapse walk, which stops at
the first entry of level `≤` the parent's) preserves the invariant. -/
theorem treeInv_mark (ns : List TNode) (i e : Nat)
    (hie : i < e) (he : e ≤ ns.length)
    (hRun : ∀ j, i < j → j < e → (nd ns i).nestLevel < (nd ns j).nestLevel)
    (hStop : e = ns.length ∨ (nd ns e).nestLevel ≤ (nd ns i).nestLevel)
    (hI : TreeInv ns) : TreeInv (markRange ns (i + 1) e) := by
  have hse : i + 1 ≤ e := hie
  have hlen := length_markRange ns (i + 1) e hse he
  have hnd := nd_markRange ns (i + 1) e hse he
  have hndL : ∀ j, (nd (markRange ns (i + 1) e) j).nestLevel = (nd ns j).nestLevel := by
    intro j; rw [hnd]; by_cases h : i + 1 ≤ j ∧ j < e
    · rw [if_pos h]
    · rw [if_neg h]
  have hndR : ∀ j, (nd (markRange ns (i + 1) e) j).isDir = (nd ns j).isDir := by
    intro j; rw [hnd]; by_cases h : i + 1 ≤ j ∧ j < e
    · rw [if_pos h]
    · rw [if_neg h]
  have hndD : ∀ j, ¬(i + 1 ≤ j ∧ j < e) →
      (nd (markRange ns (i + 1) e) j).delNode = (nd ns j).delNode := by
    intro j h; rw [hnd, if_neg h]
  have hndDmark : ∀ j, i + 1 ≤ j → j < e →
      (nd (markRange ns (i + 1) e) j).delNode = true := by
    intro j h1 h2; rw [hnd, if_pos ⟨h1, h2⟩]
  refine ⟨?_, ?_, ?_, ?_, ?_, ?_, ?_⟩
  · intro h
    have : (markRange ns (i + 1) e).length = 0 := by rw [h]; rfl
    rw [hlen] at this
    exact hI.ne (List.length_eq_zero.mp this)
  · rw [hndL]; exact hI.root0
  · rw [hndD 0 (by omega)]; exact hI.rootLive
  · rw [hndR]; exact hI.rootDir
  · intro k h0 hk; rw [hndL]; exact hI.pos k h0 (by omega)
  · intro k hk; rw [hndL, hndL]; exact hI.step k (by omega)
  · intro j hj hlv
    rw [hlen] at hj
    rw [hndL] at hlv
    obtain ⟨i0, hi0lt, hi0lvl, hi0dir, hi0live, hi0btw⟩ := hI.par j hj hlv
    refine ⟨i0, hi0lt, ?_, ?_, ?_, ?_⟩
    · rw [hndL, hndL]; exact hi0lvl
    · rw [hndR]; exact hi0dir
    · -- liveness transfer: a live node's full parent cannot lie in the
      -- marked run, because the stop entry would sit strictly between
      -- them at a level below the node's
      intro hjlive
      have hjnotrun : ¬(i + 1 ≤ j ∧ j < e) := by
        by_contra hc
        rw [hndDmark j hc.1 hc.2] at hjlive
        exact Bool.noConfusion hjlive
      rw [hndD j hjnotrun] at hjlive
      have hi0notrun : ¬(i + 1 ≤ i0 ∧ i0 < e) := by
        rintro ⟨h1, h2⟩
        have hrun_i0 := hRun i0 (by omega) h2
        have hje : e ≤ j := by
          rcases Nat.lt_or_ge j e with hje2 | hje2
          · exact absurd ⟨by omega, hje2⟩ hjnotrun
          · exact hje2
        rcases hStop with hst | hst
        · omega
        · rcases Nat.eq_or_lt_of_le hje with hje3 | hje3
          · rw [hje3] at hst; omega
          · have := hi0btw e (by omega) (by omega)
            omega
      rw [hndD i0 hi0notrun]
      exact hi0live hjlive
    · intro k hik hkj; rw [hndL, hndL]; exact hi0btw k hik hkj

/-- Physical removal of one entry (`take e ++ drop (e+1)`). -/
def eraseAt (ns : List TNode) (e : Nat) : List TNode :=
  ns.take e ++ ns.drop (e + 1)

theorem length_eraseAt (ns : List TNode) (e : Nat) (he : e < ns.length) :
    (eraseAt ns e).length = ns.length - 1 := by
  simp [eraseAt]; omega

theorem nd_eraseAt (ns : List TNode) (e : Nat) (he : e < ns.length) (j : Nat) :
    nd (eraseAt ns e) j = if j < e then nd ns j else nd ns (j + 1) := by
  unfold eraseAt
  have lenX : (ns.take e).length = e := by simp; omega
  by_cases h : j < e
  · rw [nd_append_left _ (by omega), nd_take h, if_pos h]
  · rw [nd_append_right _ (by omega), if_neg h, lenX, nd_drop]
    congr 1; omega

/-- Erasing the *last* soft-deleted entry preserves the invariant. -/
theorem treeInv_eraseLastDead (ns : List TNode) (e : Nat)
    (he : e < ns.length) (hd : (nd ns e).delNode = true)
    (hLast : ∀ k, e < k → k < ns.length → (nd ns k).delNode = false)
    (hI : TreeInv ns) : TreeInv (eraseAt ns e) := by
  have he1 : 1 ≤ e := by
    by_contra hc
    have : e = 0 := by omega
    rw [this, hI.rootLive] at hd
    exact Bool.noConfusion hd
  have hlen := length_eraseAt ns e he
  have hnd := nd_eraseAt ns e he
  -- the entry after a deleted one is not its child (its full parent
  -- would be the deleted entry, contradicting the live-parent clause)
  have hjump : e + 1 < ns.length →
      (nd ns (e + 1)).nestLevel ≤ (nd ns e).nestLevel := by
    intro hlt
    by_contra hc
    have hstep := hI.step e hlt
    have heq : (nd ns (e + 1)).nestLevel = (nd ns e).nestLevel + 1 := by omega
    have hlive : (nd ns (e + 1)).delNode = false := hLast (e + 1) (by omega) hlt
    obtain ⟨i0, hi0lt, hi0lvl, _, hi0live, hi0btw⟩ :=
      hI.par (e + 1) hlt (by omega)
    have hi0e : i0 ≠ e := by
      intro hcontra
      rw [hcontra] at hi0live
      rw [hi0live hlive] at hd
      exact Bool.noConfusion hd
    have := hi0btw e (by omega) (by omega)
    omega
  refine ⟨?_, ?_, ?_, ?_, ?_, ?_, ?_⟩
  · intro h
    have : (eraseAt ns e).length = 0 := by rw [h]; rfl
    omega
  · rw [hnd 0, if_pos (by omega)]; exact hI.root0
  · rw [hnd 0, if_pos (by omega)]; exact hI.rootLive
  · rw [hnd 0, if_pos (by omega)]; exact hI.rootDir
  · intro k h0 hk
    rw [hnd k]
    by_cases h : k < e
    · rw [if_pos h]; exact hI.pos k h0 (by omega)
    · rw [if_neg h]; exact hI.pos (k + 1) (by omega) (by omega)
  · intro k hk
    rw [hnd (k + 1), hnd k]
    by_cases h1 : k + 1 < e
    · rw [if_pos h1, if_pos (by omega)]; exact hI.step k (by omega)
    · by_cases h2 : k + 1 = e
      · -- junction around the erased entry
        rw [if_neg (by omega), if_pos (by omega)]
        have hj := hjump (by omega)
        have hstep := hI.step k (by omega)
        rw [h2]
        have h3 := hI.step (k + 1) (by omega)
        rw [h2] at h3 hstep
        omega
      · rw [if_neg (by omega), if_neg (by omega)]
        exact hI.step (k + 1) (by omega)
  · intro j hj hlv
    rw [hnd j] at hlv
    by_cases h : j < e
    · rw [if_pos h] at hlv
      obtain ⟨i0, hi0lt, hi0lvl, hi0dir, hi0live, hi0btw⟩ :=
        hI.par j (by omega) hlv
      refine ⟨i0, hi0lt, ?_, ?_, ?_, ?_⟩
      · rw [hnd i0, if_pos (by omega), hnd j, if_pos h]; exact hi0lvl
      · rw [hnd i0, if_pos (by omega)]; exact hi0dir
      · rw [hnd i0, if_pos (by omega), hnd j, if_pos h]; exact hi0live
      · intro k hik hkj
        rw [hnd k, if_pos (by omega), hnd j, if_pos h]
        exact hi0btw k hik hkj
    · rw [if_neg h] at hlv
      have hlive1 : (nd ns (j + 1)).delNode = false := by
        rw [hlen] at hj
        exact hLast (j + 1) (by omega) (by omega)
      obtain ⟨i0, hi0lt, hi0lvl, hi0dir, hi0live, hi0btw⟩ :=
        hI.par (j + 1) (by rw [hlen] at hj; omega) hlv
      have hi0e : i0 ≠ e := by
        intro hcontra
        rw [hcontra] at hi0live
        rw [hi0live hlive1] at hd
        exact Bool.noConfusion hd
      by_cases hi0lt2 : i0 < e
      · refine ⟨i0, by omega, ?_, ?_, ?_, ?_⟩
        · rw [hnd i0, if_pos hi0lt2, hnd j, if_neg h]; exact hi0lvl
        · rw [hnd i0, if_pos hi0lt2]; exact hi0dir
        · rw [hnd i0, if_pos hi0lt2, hnd j, if_neg h]; exact hi0live
        · intro k hik hkj
          rw [hnd k, hnd j, if_neg h]
          by_cases hk : k < e
          · rw [if_pos hk]; exact hi0btw k hik (by omega)
          · rw [if_neg hk]; exact hi0btw (k + 1) (by omega) (by omega)
      · have hi0gt : e < i0 := by omega
        refine ⟨i0 - 1, by omega, ?_, ?_, ?_, ?_⟩
        · rw [hnd (i0 - 1), if_neg (by omega), hnd j, if_neg h]
          have : i0 - 1 + 1 = i0 := by omega
          rw [this]; exact hi0lvl
        · rw [hnd (i0 - 1), if_neg (by omega)]
          have : i0 - 1 + 1 = i0 := by omega
          rw [this]; exact hi0dir
        · rw [hnd (i0 - 1), if_neg (by omega), hnd j, if_neg h]
          have : i0 - 1 + 1 = i0 := by omega
          rw [this]; exact hi0live
        · intro k hik hkj
          rw [hnd k, if_neg (by omega), hnd j, if_neg h]
          exact hi0btw (k + 1) (by omega) (by omega)

theorem nd_cons_zero (n : TNode) (l : List TNode) : nd (n :: l) 0 = n := rfl

theorem nd_cons_succ (n : TNode) (l : List TNode) (j : Nat) :
    nd (n :: l) (j + 1) = nd l j := rfl

theorem filter_eraseAt_dead (ns : List TNode) (e : Nat) (he : e < ns.length)
    (hd : (nd ns e).delNode = true) :
    (eraseAt ns e).filter (fun n => !n.delNode) = ns.filter (fun n => !n.delNode) := by
  have hdecomp : ns = ns.take e ++ (ns[e] :: ns.drop (e + 1)) := by
    conv_lhs => rw [← List.take_append_drop e ns]
    rw [List.drop_eq_getElem_cons he]
  have hde : ns[e].delNode = true := by
    rw [← nd_of_getElem (List.getElem?_eq_getElem he)]; exact hd
  conv_rhs => rw [hdecomp]
  rw [eraseAt, List.filter_append, List.filter_append, List.filter_cons]
  simp [hde]

theorem countP_eraseAt_dead (ns : List TNode) (e : Nat) (he : e < ns.length)
    (hd : (nd ns e).delNode = true) :
    (eraseAt ns e).countP (fun n => n.delNode) + 1 = ns.countP (fun n => n.delNode) := by
  have hdecomp : ns = ns.take e ++ (ns[e] :: ns.drop (e + 1)) := by
    conv_lhs => rw [← List.take_append_drop e ns]
    rw [List.drop_eq_getElem_cons he]
  have hde : ns[e].delNode = true := by
    rw [← nd_of_getElem (List.getElem?_eq_getElem he)]; exact hd
  conv_rhs => rw [hdecomp]
  rw [eraseAt, List.countP_append, List.countP_append, List.countP_cons]
  simp [hde]
  omega

/-- Invariant preservation for the physical sweep `run_del_nodes`. -/
theorem treeInv_filter {ns : List TNode} (hI : TreeInv ns) :
    TreeInv (ns.filter (fun n => !n.delNode)) := by
  suffices H : ∀ m (l : List TNode), l.countP (fun n => n.delNode) = m → TreeInv l →
      TreeInv (l.filter (fun n => !n.delNode)) from
    H _ ns rfl hI
  intro m
  induction m using Nat.strong_induction_on with
  | _ m ih =>
    intro l hc hIl
    rcases Nat.eq_zero_or_pos m with hm0 | hmpos
    · rw [hm0] at hc
      have hall : ∀ a ∈ l, ¬a.delNode = true := List.countP_eq_zero.mp hc
      have : l.filter (fun n => !n.delNode) = l :=
        List.filter_eq_self.mpr (fun a ha => by
          have := hall a ha
          simp [Bool.not_eq_true] at this ⊢
          exact this)
      rw [this]; exact hIl
    · -- pick the last soft-deleted index
      have hex : ∃ k, k < l.length ∧ (nd l k).delNode = true := by
        have : 0 < l.countP (fun n => n.delNode) := by omega
        obtain ⟨a, ha, hda⟩ := List.countP_pos_iff.mp this
        obtain ⟨k, hk, hak⟩ := List.mem_iff_getElem.mp ha
        exact ⟨k, hk, by rw [nd_of_getElem (List.getElem?_eq_getElem hk), hak]; exact hda⟩
      obtain ⟨k, hk, hdk⟩ := hex
      set P : Nat → Prop := fun j => (nd l j).delNode = true with hP
      have hPd : DecidablePred P := fun j => by
        rw [hP]; infer_instance
      set e := Nat.findGreatest P (l.length - 1) with hedef
      have hPe : P e := Nat.findGreatest_spec (m := k) (by omega) hdk
      have hel : e < l.length := by
        have := Nat.findGreatest_le (P := P) (l.length - 1)
        omega
      have hLast : ∀ j, e < j → j < l.length → (nd l j).delNode = false := by
        intro j hej hjl
        have := Nat.findGreatest_is_greatest (P := P) (n := l.length - 1) hej (by omega)
        rw [hP] at this
        simpa [Bool.not_eq_true] using this
      have hI2 := treeInv_eraseLastDead l e hel hPe hLast hIl
      have hfe := filter_eraseAt_dead l e hel hPe
      have hce := countP_eraseAt_dead l e hel hPe
      rw [← hfe]
      exact ih ((eraseAt l e).countP (fun n => n.delNode)) (by omega) _ rfl hI2

/-! ### Specification of the search helpers -/

theorem findIdxA_some {pr : TNode → Bool} :
    ∀ {l : List TNode} {i : Nat}, findIdxA pr l = some i →
      i < l.length ∧ pr (nd l i) = true ∧ ∀ j, j < i → pr (nd l j) = false := by
  intro l
  induction l with
  | nil => intro i h; exact Option.noConfusion h
  | cons n rest ih =>
    intro i h
    unfold findIdxA at h
    by_cases hp : pr n
    · rw [if_pos hp] at h
      cases h
      exact ⟨by simp, hp, fun j hj => absurd hj (by omega)⟩
    · rw [if_neg hp] at h
      cases hrec : findIdxA pr rest with
      | none => rw [hrec] at h; exact Option.noConfusion h
      | some i2 =>
        rw [hrec] at h
        simp at h
        obtain ⟨hlen, hpr, hbefore⟩ := ih hrec
        refine ⟨by simp; omega, ?_, ?_⟩
        · rw [← h, nd_cons_succ]; exact hpr
        · intro j hj
          cases j with
          | zero =>
            rw [nd_cons_zero]
            exact Bool.eq_false_iff.mpr hp
          | succ j2 =>
            rw [nd_cons_succ]
            exact hbefore j2 (by omega)

theorem findIdxA_none {pr : TNode → Bool} :
    ∀ {l : List TNode}, findIdxA pr l = none → ∀ j, j < l.length → pr (nd l j) = false := by
  intro l
  induction l with
  | nil => intro _ j hj; simp at hj
  | cons n rest ih =>
    intro h j hj
    unfold findIdxA at h
    by_cases hp : pr n
    · rw [if_pos hp] at h; exact Option.noConfusion h
    · rw [if_neg hp] at h
      cases j with
      | zero => rw [nd_cons_zero]; exact Bool.eq_false_iff.mpr hp
      | succ j2 =>
        cases hrec : findIdxA pr rest with
        | none =>
          rw [nd_cons_succ]
          exact ih hrec j2 (by simpa using hj)
        | some i2 => rw [hrec] at h; simp at h

theorem locateNode_spec {ns : List TNode} {p : String} {i : Nat}
    (h : locateNode ns p = some i) :
    i < ns.length ∧ (nd ns i).isDir = true ∧ (nd ns i).absPath = p ∧
      (nd ns i).delNode = false := by
  unfold locateNode at h
  cases hf : findIdxA (fun n => n.isDir && n.absPath == p) ns with
  | none => rw [hf] at h; exact Option.noConfusion h
  | some i2 =>
    rw [hf] at h
    simp only [] at h
    obtain ⟨hlen, hpr, _⟩ := findIdxA_some hf
    cases hg : ns[i2]? with
    | none => rw [hg] at h; exact Option.noConfusion h
    | some n =>
      rw [hg] at h
      simp only [] at h
      by_cases hdel : n.delNode
      · rw [if_pos hdel] at h; exact Option.noConfusion h
      · rw [if_neg hdel] at h
        cases h
        have hn : nd ns i = n := nd_of_getElem hg
        simp only [Bool.and_eq_true, beq_iff_eq] at hpr
        rw [hn] at hpr ⊢
        exact ⟨hlen, hpr.1, hpr.2, Bool.eq_false_iff.mpr hdel⟩

theorem collapseRunEnd_spec (ns : List TNode) (i : Nat) (lvl : Nat) :
    (i + 1 ≤ ns.length → i + 1 ≤ collapseRunEnd ns i lvl) ∧
    (i + 1 ≤ ns.length → collapseRunEnd ns i lvl ≤ ns.length) ∧
    (∀ j, i < j → j < collapseRunEnd ns i lvl → j < ns.length → lvl < (nd ns j).nestLevel) ∧
    (collapseRunEnd ns i lvl = ns.length ∨
      (nd ns (collapseRunEnd ns i lvl)).nestLevel ≤ lvl) := by
  cases hf : findIdxA (fun n => decide (n.nestLevel ≤ lvl)) (ns.drop (i + 1)) with
  | none =>
    have hE : collapseRunEnd ns i lvl = ns.length := by
      unfold collapseRunEnd; rw [hf]
    have hall := findIdxA_none hf
    rw [hE]
    refine ⟨fun h => h, fun _ => le_refl _, ?_, Or.inl rfl⟩
    intro j hij hjl hjlen
    have := hall (j - (i + 1)) (by simp [List.length_drop]; omega)
    rw [nd_drop] at this
    have e : i + 1 + (j - (i + 1)) = j := by omega
    rw [e] at this
    simp at this
    omega
  | some k =>
    have hE : collapseRunEnd ns i lvl = i + 1 + k := by
      unfold collapseRunEnd; rw [hf]
    obtain ⟨hklen, hpk, hbefore⟩ := findIdxA_some hf
    simp [List.length_drop] at hklen
    rw [hE]
    refine ⟨fun _ => by omega, fun _ => by omega, ?_, Or.inr ?_⟩
    · intro j hij hjk hjlen
      have := hbefore (j - (i + 1)) (by omega)
      rw [nd_drop] at this
      have e : i + 1 + (j - (i + 1)) = j := by omega
      rw [e] at this
      simp at this
      omega
    · rw [nd_drop] at hpk
      simpa using hpk

/-! ### Node-sequence effect of each operation -/

theorem cleanThreads_nodes (s : DT) : (cleanThreads s).nodes = s.nodes := rfl

theorem cleanThreads_entryHeight (s : DT) : (cleanThreads s).entryHeight = s.entryHeight := rfl

theorem setCanceled_nodes (s : DT) (tid : Nat) : (setCanceled s tid).nodes = s.nodes := by
  unfold setCanceled
  cases s.tasks[tid]? <;> rfl

theorem publishOp_nodes (s : DT) (tid : Nat) (res : Option (List String)) :
    (publishOp s tid res).nodes = s.nodes := by
  simp only [publishOp]
  split
  · rfl
  · split
    · rfl
    · split <;> rfl

/-- Decomposition of a list around one index. -/
theorem list_decomp_at (l : List TNode) (j : Nat) (hj : j < l.length) :
    l = l.take j ++ ([nd l j] ++ l.drop (j + 1)) := by
  conv_lhs => rw [← List.take_append_drop j l]
  rw [List.drop_eq_getElem_cons hj, nd_of_getElem (List.getElem?_eq_getElem hj)]
  rfl

theorem startPathLoaderExpand_nodes (hf : String → String) (s : DT) (p : String) :
    (startPathLoaderExpand hf s p).1.nodes = s.nodes ∨
    (∃ i, locateNode s.nodes p = some i ∧ i < s.nodes.length ∧
      (startPathLoaderExpand hf s p).1.nodes =
        (shiftFrom s.nodes (i + 1) s.entryHeight).take (i + 1)
          ++ [phNode (nd s.nodes i) s.entryHeight s.indentX]
          ++ (shiftFrom s.nodes (i + 1) s.entryHeight).drop (i + 1)) := by
  simp only [startPathLoaderExpand, cleanThreads_nodes]
  cases hloc : locateNode s.nodes p with
  | none => exact Or.inl rfl
  | some i =>
    have hspec := locateNode_spec hloc
    simp only []
    by_cases hreg :
      (match lookupK (hf p) (cleanThreads s).threadObjs with
        | some tid =>
          match (cleanThreads s).tasks[tid]? with
          | some tk => !tk.canceled
          | none => false
        | none => false) = true
    · rw [if_pos hreg]
      exact Or.inl rfl
    · rw [if_neg hreg]
      have hndi : nd s.nodes i = s.nodes[i] :=
        nd_of_getElem (List.getElem?_eq_getElem hspec.1)
      have hpar : s.nodes[i]? = some (nd s.nodes i) := by
        rw [hndi]; exact List.getElem?_eq_getElem hspec.1
      right
      refine ⟨i, rfl, hspec.1, ?_⟩
      simp only [hpar]
      by_cases hct : (cleanThreads s).cleanThreadAlive = true
      · simp only [if_pos hct]; rfl
      · simp only [if_neg hct]; rfl

theorem treeInv_expand (hf : String → String) (s : DT) (p : String)
    (hI : TreeInv s.nodes) : TreeInv ((startPathLoaderExpand hf s p).1.nodes) := by
  rcases startPathLoaderExpand_nodes hf s p with h | ⟨i, hloc, hi, h⟩
  · rw [h]; exact hI
  · rw [h]
    have hspec := locateNode_spec hloc
    set ns1 := shiftFrom s.nodes (i + 1) s.entryHeight with hns1
    have hlen1 : ns1.length = s.nodes.length := length_shiftFrom _ _ _
    have hI1 : TreeInv ns1 := treeInv_shiftFrom _ _ hI
    have hnd1 : nd ns1 i = nd s.nodes i := by
      rw [hns1, nd_shiftFrom, if_neg (by omega)]
    have htake : (ns1.take (i + 1)).length = i + 1 := by
      simp [hlen1]; omega
    have hdecomp : ns1 = ns1.take (i + 1) ++ ([] ++ ns1.drop (i + 1)) := by
      rw [List.nil_append, List.take_append_drop]
    have happ : ns1.take (i + 1) ++ [phNode (nd s.nodes i) s.entryHeight s.indentX]
        ++ ns1.drop (i + 1)
        = ns1.take (i + 1) ++ ([phNode (nd s.nodes i) s.entryHeight s.indentX]
          ++ ns1.drop (i + 1)) := by
      rw [List.append_assoc]
    rw [happ]
    apply treeInv_replace (p := nd s.nodes i)
    · omega
    · rw [htake, Nat.add_sub_cancel, nd_take (by omega), hnd1]
    · exact hspec.2.2.2
    · exact hspec.2.1
    · exact Or.inl rfl
    · intro c hc
      simp only [List.mem_singleton] at hc
      subst hc
      exact ⟨rfl, rfl⟩
    · rw [← hdecomp]; exact hI1

theorem collapseCancelOwn_nodes (hf : String → String) (s : DT) (p : String) :
    (collapseCancelOwn hf s p).nodes = s.nodes := by
  simp only [collapseCancelOwn]
  split
  · split
    · split
      · rw [setCanceled_nodes]
      · rfl
    · rfl
  · rfl

theorem cancelDirTask_nodes (hf : String → String) (acc : DT) (n : TNode) :
    (cancelDirTask hf acc n).nodes = acc.nodes := by
  simp only [cancelDirTask]
  split
  · split
    · rw [setCanceled_nodes]
    · rfl
  · rfl

theorem cancelFold_nodes (hf : String → String) :
    ∀ (l : List TNode) (s : DT), (l.foldl (cancelDirTask hf) s).nodes = s.nodes := by
  intro l
  induction l with
  | nil => intro s; rfl
  | cons n rest ih =>
    intro s
    rw [List.foldl_cons, ih, cancelDirTask_nodes]

theorem setCanceled_entryHeight (s : DT) (tid : Nat) :
    (setCanceled s tid).entryHeight = s.entryHeight := by
  unfold setCanceled
  cases s.tasks[tid]? <;> rfl

theorem collapseCancelOwn_entryHeight (hf : String → String) (s : DT) (p : String) :
    (collapseCancelOwn hf s p).entryHeight = s.entryHeight := by
  simp only [collapseCancelOwn]
  split
  · split
    · split
      · rw [setCanceled_entryHeight]
      · rfl
    · rfl
  · rfl

theorem cancelDirTask_entryHeight (hf : String → String) (acc : DT) (n : TNode) :
    (cancelDirTask hf acc n).entryHeight = acc.entryHeight := by
  simp only [cancelDirTask]
  split
  · split
    · rw [setCanceled_entryHeight]
    · rfl
  · rfl

theorem cancelFold_entryHeight (hf : String → String) :
    ∀ (l : List TNode) (s : DT),
      (l.foldl (cancelDirTask hf) s).entryHeight = s.entryHeight := by
  intro l
  induction l with
  | nil => intro s; rfl
  | cons n rest ih =>
    intro s
    rw [List.foldl_cons, ih, cancelDirTask_entryHeight]

/-- The shifted-and-marked list a successful collapse leaves behind
(selection bookkeeping aside). -/
def collapseBase (s : DT) (i : Nat) : List TNode :=
  let e := collapseRunEnd s.nodes i (nd s.nodes i).nestLevel
  shiftFrom (markRange s.nodes (i + 1) e) e ((((i : Int) + 1) - (e : Int)) * s.entryHeight)

theorem startPathLoaderCollapse_nodes (hf : String → String) (s : DT) (p : String) :
    (startPathLoaderCollapse hf s p).1.nodes = s.nodes ∨
    ∃ i, locateNode s.nodes p = some i ∧ i < s.nodes.length ∧
      ((startPathLoaderCollapse hf s p).1.nodes = collapseBase s i ∨
       ∃ j, (startPathLoaderCollapse hf s p).1.nodes =
         modifyAt (collapseBase s i) j (fun n => { n with selected := true })) := by
  simp only [startPathLoaderCollapse]
  have hn : (collapseCancelOwn hf (cleanThreads s) p).nodes = s.nodes := by
    rw [collapseCancelOwn_nodes, cleanThreads_nodes]
  rw [hn]
  cases hloc : locateNode s.nodes p with
  | none => exact Or.inl hn
  | some i =>
    have hspec := locateNode_spec hloc
    have hndi : nd s.nodes i = s.nodes[i] :=
      nd_of_getElem (List.getElem?_eq_getElem hspec.1)
    have hpar : s.nodes[i]? = some (nd s.nodes i) := by
      rw [hndi]; exact List.getElem?_eq_getElem hspec.1
    simp only [hpar]
    right
    refine ⟨i, rfl, hspec.1, ?_⟩
    rw [cancelFold_nodes hf, hn, cancelFold_entryHeight hf, collapseCancelOwn_entryHeight,
      cleanThreads_entryHeight]
    by_cases hhit :
      (match locateNode s.nodes (collapseCancelOwn hf (cleanThreads s) p).selectedPath with
        | some sn =>
          decide (i + 1 ≤ sn) &&
            decide (sn < collapseRunEnd s.nodes i (nd s.nodes i).nestLevel)
        | none => false) = true
    · rw [if_pos hhit]
      cases hsel : locateNode
          (shiftFrom (markRange s.nodes (i + 1)
            (collapseRunEnd s.nodes i (nd s.nodes i).nestLevel))
            (collapseRunEnd s.nodes i (nd s.nodes i).nestLevel)
            ((((i : Int) + 1)
              - ((collapseRunEnd s.nodes i (nd s.nodes i).nestLevel) : Int))
              * s.entryHeight))
          (nd s.nodes i).absPath with
      | none =>
        left
        exact rfl
      | some j =>
        right
        exact ⟨j, rfl⟩
    · rw [if_neg hhit]
      left
      rfl

theorem treeInv_modifyAt_sk {ns : List TNode} (j : Nat) (f : TNode → TNode)
    (hsk : ∀ n, sk (f n) = sk n) (hI : TreeInv ns) : TreeInv (modifyAt ns j f) := by
  apply treeInv_of_sk_eq (length_modifyAt ns j f).symm ?_ hI
  intro i hi
  rw [nd_modifyAt]
  by_cases h : i = j ∧ j < ns.length
  · rw [if_pos h, hsk, h.1]
  · rw [if_neg h]

theorem treeInv_collapse (hf : String → String) (s : DT) (p : String)
    (hI : TreeInv s.nodes) : TreeInv ((startPathLoaderCollapse hf s p).1.nodes) := by
  rcases startPathLoaderCollapse_nodes hf s p with h | ⟨i, hloc, hi, hcase⟩
  · rw [h]; exact hI
  · have hbase : TreeInv (collapseBase s i) := by
      unfold collapseBase
      obtain ⟨h1, h2, h3, h4⟩ := collapseRunEnd_spec s.nodes i (nd s.nodes i).nestLevel
      apply treeInv_shiftFrom
      apply treeInv_mark s.nodes i (collapseRunEnd s.nodes i (nd s.nodes i).nestLevel)
        (h1 (by omega)) (h2 (by omega)) ?_ h4 hI
      intro j hij hje
      exact h3 j hij hje (by have := h2 (by omega); omega)
    rcases hcase with h | ⟨j, h⟩
    · rw [h]; exact hbase
    · rw [h]
      exact treeInv_modifyAt_sk j _ (fun n => rfl) hbase

theorem treeInv_addPendingOne (eh ind : Int) (ns : List TNode)
    (ent : String × Option (List String)) (hI : TreeInv ns) :
    TreeInv (addPendingOne eh ind ns ent) := by
  unfold addPendingOne
  cases hloc : locateNode ns ent.1 with
  | none => exact hI
  | some i =>
    have hspec := locateNode_spec hloc
    have hpar : ns[i]? = some (nd ns i) := by
      rw [nd_of_getElem (List.getElem?_eq_getElem hspec.1)]
      exact List.getElem?_eq_getElem hspec.1
    simp only [hpar]
    cases hln : ns[i + 1]? with
    | none => exact hI
    | some ln =>
      have hlen2 : i + 1 < ns.length := by
        by_contra hc
        rw [List.getElem?_eq_none (by omega)] at hln
        exact Option.noConfusion hln
      have hlneq : nd ns (i + 1) = ln := nd_of_getElem hln
      simp only []
      by_cases hdir : ln.isDir = true
      · rw [if_pos hdir]; exact hI
      · rw [if_neg hdir]
        cases hres : ent.2 with
        | none => exact treeInv_modifyAt_sk (i + 1) _ (fun n => rfl) hI
        | some ds =>
          show TreeInv
            (List.take (i + 1) (shiftFrom ns (i + 2) (((ds.length : Int) - 1) * eh))
              ++ (List.range ds.length).map
                  (fun m => mkChildNode (nd ns i) (ds.getD m "") m eh ind)
              ++ List.drop (i + 2) (shiftFrom ns (i + 2) (((ds.length : Int) - 1) * eh)))
          have hlen1 : (shiftFrom ns (i + 2) (((ds.length : Int) - 1) * eh)).length
              = ns.length := length_shiftFrom _ _ _
          have hI1 : TreeInv (shiftFrom ns (i + 2) (((ds.length : Int) - 1) * eh)) :=
            treeInv_shiftFrom _ _ hI
          set ns1 := shiftFrom ns (i + 2) (((ds.length : Int) - 1) * eh) with hns1
          have hnd1i : nd ns1 i = nd ns i := by
            rw [hns1, nd_shiftFrom, if_neg (by omega)]
          have hnd1s : nd ns1 (i + 1) = nd ns (i + 1) := by
            rw [hns1, nd_shiftFrom, if_neg (by omega)]
          have htake : (ns1.take (i + 1)).length = i + 1 := by
            simp [hlen1]; omega
          have happ : ns1.take (i + 1)
              ++ (List.range ds.length).map
                  (fun m => mkChildNode (nd ns i) (ds.getD m "") m eh ind)
              ++ ns1.drop (i + 2)
              = ns1.take (i + 1)
                ++ ((List.range ds.length).map
                    (fun m => mkChildNode (nd ns i) (ds.getD m "") m eh ind)
                  ++ ns1.drop (i + 2)) := by
            rw [List.append_assoc]
          rw [happ]
          apply treeInv_replace (p := nd ns i) (M := [nd ns1 (i + 1)])
          · omega
          · rw [htake, Nat.add_sub_cancel, nd_take (by omega), hnd1i]
          · exact hspec.2.2.2
          · exact hspec.2.1
          · refine Or.inr ⟨nd ns1 (i + 1), rfl, ?_⟩
            rw [hnd1s, hlneq]
            exact Bool.eq_false_iff.mpr hdir
          · intro c hc
            simp only [List.mem_map, List.mem_range] at hc
            obtain ⟨m, _, rfl⟩ := hc
            exact ⟨rfl, rfl⟩
          · rw [← list_decomp_at ns1 (i + 1) (by omega)]
            exact hI1

theorem treeInv_addPendingNodes (s : DT) (hI : TreeInv s.nodes) :
    TreeInv ((addPendingNodes s).nodes) := by
  unfold addPendingNodes
  simp only []
  have : ∀ (q : List (String × Option (List String))) (ns : List TNode), TreeInv ns →
      TreeInv (q.foldl (addPendingOne s.entryHeight s.indentX) ns) := by
    intro q
    induction q with
    | nil => intro ns h; exact h
    | cons ent rest ih =>
      intro ns h
      rw [List.foldl_cons]
      exact ih _ (treeInv_addPendingOne _ _ _ _ h)
  exact this _ _ hI

theorem treeInv_applyAct (hf : String → String) (s : DT) (a : Act)
    (hI : TreeInv s.nodes) : TreeInv ((applyAct hf s a).nodes) := by
  cases a with
  | expand p => exact treeInv_expand hf s p hI
  | collapse p => exact treeInv_collapse hf s p hI
  | publish tid res =>
    show TreeInv ((publishOp s tid res).nodes)
    rw [publishOp_nodes]
    exact hI
  | drain => exact treeInv_addPendingNodes s hI
  | sweep => exact treeInv_filter hI

theorem treeInv_init (rootPath : String) (eh ind : Int) :
    TreeInv (initDT rootPath eh ind).nodes := by
  refine ⟨?_, rfl, rfl, rfl, ?_, ?_, ?_⟩
  · intro h; exact List.noConfusion h
  · intro i h0 hi
    simp [initDT] at hi
    omega
  · intro i hi
    simp [initDT] at hi
  · intro j hj hlv
    simp [initDT] at hj
    subst hj
    simp [initDT, nd] at hlv

theorem treeInv_applyActs (hf : String → String) (acts : List Act) (s : DT)
    (hI : TreeInv s.nodes) : TreeInv ((applyActs hf acts s).nodes) := by
  induction acts generalizing s with
  | nil => exact hI
  | cons a rest ih =>
    show TreeInv ((applyActs hf rest (applyAct hf s a)).nodes)
    exact ih _ (treeInv_applyAct hf s a hI)

theorem liveLevels_getD (ns : List TNode) (n : Nat) :
    (liveLevels ns).getD n 0 = (nd (ns.filter (fun x => !x.delNode)) n).nestLevel :=
  List.getD_map _ dfltNode (fun x => x.nestLevel)

theorem liveLevels_length (ns : List TNode) :
    (liveLevels ns).length = (ns.filter (fun x => !x.delNode)).length := by
  simp [liveLevels]

/-- **C1**: after any sequence of expand/collapse clicks (together with
the operations that service them: loader publishes, the per-tick drain
and the deletion sweep), the node sequence with soft-deleted entries
treated as absent is a valid pre-order flattening of a tree rooted at the
root node: it is nonempty, starts at nest level 0, consecutive nest
levels climb by at most one (which makes every node's descendants one
contiguous run), and whenever the next entry is deeper it is deeper by
exactly one — an expanded node's children sit at its nest level plus one
in one contiguous run directly after it. -/
theorem C1_preorder_flattening_invariant (hf : String → String) (rootPath : String)
    (eh ind : Int) (acts : List Act) :
    liveLevels ((applyActs hf acts (initDT rootPath eh ind)).nodes) ≠ [] ∧
    (liveLevels ((applyActs hf acts (initDT rootPath eh ind)).nodes)).getD 0 0 = 0 ∧
    (∀ i, i + 1 < (liveLevels ((applyActs hf acts (initDT rootPath eh ind)).nodes)).length →
      (liveLevels ((applyActs hf acts (initDT rootPath eh ind)).nodes)).getD (i + 1) 0
        ≤ (liveLevels ((applyActs hf acts (initDT rootPath eh ind)).nodes)).getD i 0 + 1) ∧
    (∀ i, i + 1 < (liveLevels ((applyActs hf acts (initDT rootPath eh ind)).nodes)).length →
      (liveLevels ((applyActs hf acts (initDT rootPath eh ind)).nodes)).getD i 0
          < (liveLevels ((applyActs hf acts (initDT rootPath eh ind)).nodes)).getD (i + 1) 0 →
      (liveLevels ((applyActs hf acts (initDT rootPath eh ind)).nodes)).getD (i + 1) 0
        = (liveLevels ((applyActs hf acts (initDT rootPath eh ind)).nodes)).getD i 0 + 1) := by
  have hI : TreeInv ((applyActs hf acts (initDT rootPath eh ind)).nodes) :=
    treeInv_applyActs hf acts _ (treeInv_init rootPath eh ind)
  have hg : TreeInv (((applyActs hf acts (initDT rootPath eh ind)).nodes).filter
      (fun x => !x.delNode)) := treeInv_filter hI
  refine ⟨?_, ?_, ?_, ?_⟩
  · intro h
    apply hg.ne
    have := liveLevels_length ((applyActs hf acts (initDT rootPath eh ind)).nodes)
    rw [h] at this
    simp at this
    exact List.length_eq_zero.mp this.symm
  · rw [liveLevels_getD]
    exact hg.root0
  · intro i hi
    rw [liveLevels_getD, liveLevels_getD]
    rw [liveLevels_length] at hi
    exact hg.step i hi
  · intro i hi hlt
    rw [liveLevels_getD, liveLevels_getD] at hlt ⊢
    rw [liveLevels_length] at hi
    have := hg.step i hi
    omega

/-- `nd` on a mapped `List.range` (the child-comprehension of
`add_pending_nodes`). -/
theorem nd_map_range (k : Nat) (f : Nat → TNode) (m : Nat) (hm : m < k) :
    nd ((List.range k).map f) m = f m := by
  rw [nd_eq_getElem, List.getElem?_map, List.getElem?_range hm]
  rfl

/-- **C2**: case analysis of one drain iteration of `add_pending_nodes`.
If no live node exists for the delivered path the result is dropped; if
the entry directly after the node is not a `TextNode` placeholder the
result is dropped as stale; on the error sentinel only the placeholder's
text becomes "Error" (no children appear, the shape is untouched); on
success the placeholder is replaced by one child `DirNode` per returned
path at nest level parent + 1, and every node after the spliced run is
shifted down by exactly `(childCount - 1) * entryHeight` (so two
delivered children move later nodes down by one entry height). -/
theorem C2_drain_result_cases (eh ind : Int) (ns : List TNode) (p : String)
    (res : Option (List String)) :
    (locateNode ns p = none → addPendingOne eh ind ns (p, res) = ns) ∧
    (∀ i, locateNode ns p = some i → i + 1 < ns.length → (nd ns (i + 1)).isDir = true →
      addPendingOne eh ind ns (p, res) = ns) ∧
    (∀ i, locateNode ns p = some i → i + 1 < ns.length → (nd ns (i + 1)).isDir = false →
      res = none →
      addPendingOne eh ind ns (p, res)
          = modifyAt ns (i + 1) (fun n => { n with text := "Error" }) ∧
      (addPendingOne eh ind ns (p, res)).length = ns.length ∧
      (nd (addPendingOne eh ind ns (p, res)) (i + 1)).isDir = false ∧
      (∀ j, j ≠ i + 1 → nd (addPendingOne eh ind ns (p, res)) j = nd ns j)) ∧
    (∀ i ds, locateNode ns p = some i → i + 1 < ns.length →
      (nd ns (i + 1)).isDir = false → res = some ds →
      (addPendingOne eh ind ns (p, res)).length + 1 = ns.length + ds.length ∧
      (∀ j, j ≤ i → nd (addPendingOne eh ind ns (p, res)) j = nd ns j) ∧
      (∀ m, m < ds.length →
        nd (addPendingOne eh ind ns (p, res)) (i + 1 + m)
          = mkChildNode (nd ns i) (ds.getD m "") m eh ind) ∧
      (∀ j, i + 2 ≤ j → j < ns.length →
        nd (addPendingOne eh ind ns (p, res)) (j + ds.length - 1)
          = { nd ns j with y := (nd ns j).y + ((ds.length : Int) - 1) * eh })) := by
  refine ⟨?_, ?_, ?_, ?_⟩
  · intro hloc
    unfold addPendingOne
    rw [hloc]
  · intro i hloc hlen hdir
    unfold addPendingOne
    rw [hloc]
    have hspec := locateNode_spec hloc
    have hpar : ns[i]? = some (nd ns i) := by
      rw [nd_of_getElem (List.getElem?_eq_getElem hspec.1)]
      exact List.getElem?_eq_getElem hspec.1
    have hln : ns[i + 1]? = some (nd ns (i + 1)) := by
      rw [nd_of_getElem (List.getElem?_eq_getElem hlen)]
      exact List.getElem?_eq_getElem hlen
    simp only [hpar, hln, hdir, if_true]
  · intro i hloc hlen hdir hres
    subst hres
    have hspec := locateNode_spec hloc
    have hpar : ns[i]? = some (nd ns i) := by
      rw [nd_of_getElem (List.getElem?_eq_getElem hspec.1)]
      exact List.getElem?_eq_getElem hspec.1
    have hln : ns[i + 1]? = some (nd ns (i + 1)) := by
      rw [nd_of_getElem (List.getElem?_eq_getElem hlen)]
      exact List.getElem?_eq_getElem hlen
    have heq : addPendingOne eh ind ns (p, none)
        = modifyAt ns (i + 1) (fun n => { n with text := "Error" }) := by
      unfold addPendingOne
      rw [hloc]
      simp only [hpar, hln, hdir, Bool.false_eq_true, if_false]
    refine ⟨heq, ?_, ?_, ?_⟩
    · rw [heq, length_modifyAt]
    · rw [heq, nd_modifyAt, if_pos ⟨rfl, hlen⟩]
      exact hdir
    · intro j hj
      rw [heq, nd_modifyAt, if_neg (by tauto)]
  · intro i ds hloc hlen hdir hres
    subst hres
    have hspec := locateNode_spec hloc
    have hpar : ns[i]? = some (nd ns i) := by
      rw [nd_of_getElem (List.getElem?_eq_getElem hspec.1)]
      exact List.getElem?_eq_getElem hspec.1
    have hln : ns[i + 1]? = some (nd ns (i + 1)) := by
      rw [nd_of_getElem (List.getElem?_eq_getElem hlen)]
      exact List.getElem?_eq_getElem hlen
    set ns1 := shiftFrom ns (i + 2) (((ds.length : Int) - 1) * eh) with hns1
    have hlen1 : ns1.length = ns.length := length_shiftFrom _ _ _
    have heq : addPendingOne eh ind ns (p, some ds)
        = ns1.take (i + 1)
          ++ (List.range ds.length).map
              (fun m => mkChildNode (nd ns i) (ds.getD m "") m eh ind)
          ++ ns1.drop (i + 2) := by
      unfold addPendingOne
      rw [hloc]
      simp only [hpar, hln, hdir, Bool.false_eq_true, if_false]
    have htake : (ns1.take (i + 1)).length = i + 1 := by simp [hlen1]; omega
    have hmid : ((List.range ds.length).map
        (fun m => mkChildNode (nd ns i) (ds.getD m "") m eh ind)).length
        = ds.length := by simp
    refine ⟨?_, ?_, ?_, ?_⟩
    · rw [heq]
      simp [hlen1]
      omega
    · intro j hj
      rw [heq, nd_append_left _ (by rw [List.length_append, htake, hmid]; omega),
        nd_append_left _ (by rw [htake]; omega), nd_take (by omega), hns1,
        nd_shiftFrom, if_neg (by omega)]
    · intro m hm
      rw [heq, nd_append_left _ (by rw [List.length_append, htake, hmid]; omega),
        nd_append_right _ (by rw [htake]; omega), htake]
      have e : i + 1 + m - (i + 1) = m := by omega
      rw [e, nd_map_range _ _ _ hm]
    · intro j hj1 hj2
      rw [heq, nd_append_right _ (by rw [List.length_append, htake, hmid]; omega),
        List.length_append, htake, hmid]
      have e : j + ds.length - 1 - (i + 1 + ds.length) = j - (i + 2) := by omega
      rw [e, nd_drop, hns1, nd_shiftFrom]
      have e2 : i + 2 + (j - (i + 2)) = j := by omega
      rw [e2, if_pos ⟨by omega, hj2⟩]

/-- Witness for C2: in the state `[root, placeholder, sibling]` the
delivery `("/", ["/a", "/b"])` replaces the placeholder with the two
children and shifts the later node down by one entry height. -/
theorem C2_drain_witness :
    locateNode c2ns "/" = some 0 ∧ (0 + 1 < c2ns.length) ∧
    ((nd c2ns (0 + 1)).isDir = false) ∧
    ((addPendingOne 10 20 c2ns ("/", some ["/a", "/b"])).length + 1
        = c2ns.length + (["/a", "/b"] : List String).length ∧
      (∀ j, j ≤ 0 →
        nd (addPendingOne 10 20 c2ns ("/", some ["/a", "/b"])) j = nd c2ns j) ∧
      (∀ m, m < (["/a", "/b"] : List String).length →
        nd (addPendingOne 10 20 c2ns ("/", some ["/a", "/b"])) (0 + 1 + m)
          = mkChildNode (nd c2ns 0) ((["/a", "/b"] : List String).getD m "") m 10 20) ∧
      (∀ j, 0 + 2 ≤ j → j < c2ns.length →
        nd (addPendingOne 10 20 c2ns ("/", some ["/a", "/b"]))
            (j + (["/a", "/b"] : List String).length - 1)
          = { nd c2ns j with
              y := (nd c2ns j).y + (((["/a", "/b"] : List String).length : Int) - 1) * 10 })) :=
  ⟨by decide, by decide, by decide,
    (C2_drain_result_cases 10 20 c2ns "/" (some ["/a", "/b"])).2.2.2 0 ["/a", "/b"]
      (by decide) (by decide) (by decide) rfl⟩

/-! ### Registry dictionary lemmas (for C3/C4) -/

theorem lookupK_mem {k : String} {l : List (String × Nat)} {v : Nat}
    (h : lookupK k l = some v) : (k, v) ∈ l := by
  unfold lookupK at h
  cases hf : l.find? (fun kv => kv.1 == k) with
  | none => rw [hf] at h; exact Option.noConfusion h
  | some kv =>
    rw [hf] at h
    simp at h
    have hmem := List.mem_of_find?_eq_some hf
    have hp := List.find?_some hf
    simp at hp
    have : kv = (k, v) := by
      cases kv with
      | mk a b => simp at hp h; rw [hp, h]
    rw [← this]
    exact hmem

theorem mem_lookupK {k : String} {l : List (String × Nat)} {v : Nat}
    (hnd : (l.map Prod.fst).Nodup) (h : (k, v) ∈ l) : lookupK k l = some v := by
  induction l with
  | nil => simp at h
  | cons kv rest ih =>
    simp only [List.map_cons, List.nodup_cons] at hnd
    rcases List.mem_cons.mp h with heq | hmem
    · rw [← heq]
      unfold lookupK
      simp
    · have hne : kv.1 ≠ k := by
        intro hcontra
        apply hnd.1
        rw [hcontra]
        exact List.mem_map.mpr ⟨(k, v), hmem, rfl⟩
      unfold lookupK
      rw [List.find?_cons_of_neg _ (by simpa using hne)]
      exact ih hnd.2 hmem

theorem nodup_filter_keys (l : List (String × Nat)) (q : String × Nat → Bool)
    (hnd : (l.map Prod.fst).Nodup) : ((l.filter q).map Prod.fst).Nodup :=
  List.Nodup.sublist (List.Sublist.map Prod.fst (List.filter_sublist l)) hnd

/-- The live-loader test performed by `start_path_loader` after
`clean_threads`, characterised on the uncleaned registry. -/
theorem registryLive_iff (hf : String → String) (s : DT) (p : String)
    (hnd : (s.threadObjs.map Prod.fst).Nodup) :
    (match lookupK (hf p) (cleanThreads s).threadObjs with
      | some tid =>
        match (cleanThreads s).tasks[tid]? with
        | some tk => !tk.canceled
        | none => false
      | none => false) = true ↔
    (∃ tid tk, lookupK (hf p) s.threadObjs = some tid ∧ s.tasks[tid]? = some tk ∧
      tk.alive = true ∧ tk.canceled = false) := by
  constructor
  · intro h
    cases hlk : lookupK (hf p) (cleanThreads s).threadObjs with
    | none => rw [hlk] at h; simp at h
    | some tid =>
      rw [hlk] at h
      have h2 : (match (cleanThreads s).tasks[tid]? with
          | some tk => !tk.canceled
          | none => false) = true := h
      cases htk : (cleanThreads s).tasks[tid]? with
      | none => rw [htk] at h2; simp at h2
      | some tk =>
        rw [htk] at h2
        simp at h2
        have hmem := lookupK_mem hlk
        simp only [cleanThreads] at hmem
        rw [List.mem_filter] at hmem
        have hq := hmem.2
        rw [show (cleanThreads s).tasks = s.tasks from rfl] at htk
        rw [htk] at hq
        simp at hq
        exact ⟨tid, tk, mem_lookupK hnd hmem.1, htk, hq.1, h2⟩
  · rintro ⟨tid, tk, hlk, htk, halive, hcanc⟩
    have hmem := lookupK_mem hlk
    have hq : (fun kv =>
        match s.tasks[kv.2]? with
        | some tk => tk.alive && !tk.canceled
        | none => false) (hf p, tid) = true := by
      simp only [htk]
      rw [halive, hcanc]
      rfl
    have hmemf : (hf p, tid) ∈ (cleanThreads s).threadObjs := by
      simp only [cleanThreads]
      rw [List.mem_filter]
      exact ⟨hmem, hq⟩
    have hlkf : lookupK (hf p) (cleanThreads s).threadObjs = some tid :=
      mem_lookupK (nodup_filter_keys _ _ hnd) hmemf
    rw [hlkf]
    show (match s.tasks[tid]? with
      | some tk => !tk.canceled
      | none => false) = true
    rw [htk]
    simp [hcanc]

/-- **C4**: an expand request is rejected (returns `False`) exactly when
no live node exists for the path or a live non-cancelled loader for that
path is still registered; a rejected request spawns no loader task,
inserts no placeholder, and leaves the node sequence (and the result
queue) unchanged.  The `Nodup` hypothesis states the registry is a
dictionary (unique keys), as Python's `dict` guarantees. -/
theorem C4_expand_reject (hf : String → String) (s : DT) (p : String)
    (hnd : (s.threadObjs.map Prod.fst).Nodup) :
    ((startPathLoaderExpand hf s p).2 = false ↔
      (locateNode s.nodes p = none ∨
        ∃ tid tk, lookupK (hf p) s.threadObjs = some tid ∧ s.tasks[tid]? = some tk ∧
          tk.alive = true ∧ tk.canceled = false)) ∧
    ((startPathLoaderExpand hf s p).2 = false →
      (startPathLoaderExpand hf s p).1.nodes = s.nodes ∧
      (startPathLoaderExpand hf s p).1.tasks = s.tasks ∧
      (startPathLoaderExpand hf s p).1.pendingNodes = s.pendingNodes) := by
  cases hloc : locateNode s.nodes p with
  | none =>
    have hres : startPathLoaderExpand hf s p = (cleanThreads s, false) := by
      simp only [startPathLoaderExpand, cleanThreads_nodes, hloc]
    constructor
    · rw [hres]
      exact iff_of_true rfl (Or.inl rfl)
    · intro _
      rw [hres]
      exact ⟨rfl, rfl, rfl⟩
  | some i =>
    have hspec := locateNode_spec hloc
    have hpar : s.nodes[i]? = some (nd s.nodes i) := by
      rw [nd_of_getElem (List.getElem?_eq_getElem hspec.1)]
      exact List.getElem?_eq_getElem hspec.1
    by_cases hreg :
      (match lookupK (hf p) (cleanThreads s).threadObjs with
        | some tid =>
          match (cleanThreads s).tasks[tid]? with
          | some tk => !tk.canceled
          | none => false
        | none => false) = true
    · have hres : startPathLoaderExpand hf s p = (cleanThreads s, false) := by
        simp only [startPathLoaderExpand, cleanThreads_nodes, hloc]
        rw [if_pos hreg]
      constructor
      · rw [hres]
        exact iff_of_true rfl (Or.inr ((registryLive_iff hf s p hnd).mp hreg))
      · intro _
        rw [hres]
        exact ⟨rfl, rfl, rfl⟩
    · have hres2 : (startPathLoaderExpand hf s p).2 = true := by
        simp only [startPathLoaderExpand, cleanThreads_nodes, hloc]
        rw [if_neg hreg]
        simp only [hpar]
        by_cases hct : (cleanThreads s).cleanThreadAlive = true
        · rw [if_pos hct]
        · rw [if_neg hct]
      constructor
      · rw [hres2]
        apply iff_of_false (by simp)
        rintro (h | hex)
        · exact Option.noConfusion h
        · exact hreg ((registryLive_iff hf s p hnd).mpr hex)
      · intro hcontra
        rw [hres2] at hcontra
        exact Bool.noConfusion hcontra

/-! ### Task cancellation lemmas (C3) -/

/-- The loader registered at `tid` has its cancellation flag set. -/
def CanceledAt (s : DT) (tid : Nat) : Prop :=
  ∃ tk, s.tasks[tid]? = some tk ∧ tk.canceled = true

theorem collapseCancelOwn_cancels {hf : String → String} {s : DT} {p : String}
    {tid : Nat} {tk : Loader} (hlk : lookupK (hf p) s.threadObjs = some tid)
    (htk : s.tasks[tid]? = some tk) :
    CanceledAt (collapseCancelOwn hf s p) tid := by
  have htid : tid < s.tasks.length := by
    by_contra hc
    rw [List.getElem?_eq_none (by omega)] at htk
    exact Option.noConfusion htk
  simp only [collapseCancelOwn, hlk, htk]
  by_cases hc : tk.canceled = true
  · rw [if_neg (by simp [hc])]
    exact ⟨tk, htk, hc⟩
  · rw [if_pos (by simp [Bool.eq_false_iff.mpr hc])]
    refine ⟨{ tk with canceled := true }, ?_, rfl⟩
    simp only [setCanceled, htk]
    rw [List.getElem?_set, if_pos rfl, if_pos htid]

theorem setCanceled_CanceledAt {s : DT} {tid tid2 : Nat} (h : CanceledAt s tid) :
    CanceledAt (setCanceled s tid2) tid := by
  obtain ⟨tk, htk, hc⟩ := h
  unfold setCanceled
  cases hg : s.tasks[tid2]? with
  | none => exact ⟨tk, htk, hc⟩
  | some tk2 =>
    have htid2 : tid2 < s.tasks.length := by
      by_contra hcontra
      rw [List.getElem?_eq_none (by omega)] at hg
      exact Option.noConfusion hg
    by_cases he : tid2 = tid
    · refine ⟨{ tk2 with canceled := true }, ?_, rfl⟩
      show (s.tasks.set tid2 _)[tid]? = _
      rw [List.getElem?_set, if_pos he, if_pos (by omega)]
    · refine ⟨tk, ?_, hc⟩
      show (s.tasks.set tid2 _)[tid]? = _
      rw [List.getElem?_set, if_neg he]
      exact htk

theorem cancelDirTask_CanceledAt {hf : String → String} {s : DT} {n : TNode}
    {tid : Nat} (h : CanceledAt s tid) : CanceledAt (cancelDirTask hf s n) tid := by
  unfold cancelDirTask
  split
  · split
    · exact setCanceled_CanceledAt h
    · exact h
  · exact h

theorem cancelFold_CanceledAt {hf : String → String} {tid : Nat} :
    ∀ (l : List TNode) (s : DT), CanceledAt s tid →
      CanceledAt (l.foldl (cancelDirTask hf) s) tid := by
  intro l
  induction l with
  | nil => intro s h; exact h
  | cons n rest ih =>
    intro s h
    rw [List.foldl_cons]
    exact ih _ (cancelDirTask_CanceledAt h)

theorem collapse_tasks_foldl (hf : String → String) (s : DT) (p : String) :
    ∃ l : List TNode, (startPathLoaderCollapse hf s p).1.tasks
      = (l.foldl (cancelDirTask hf) (collapseCancelOwn hf (cleanThreads s) p)).tasks := by
  simp only [startPathLoaderCollapse]
  cases hloc : locateNode (collapseCancelOwn hf (cleanThreads s) p).nodes p with
  | none => exact ⟨[], rfl⟩
  | some i =>
    have hspec := locateNode_spec hloc
    have hpar : (collapseCancelOwn hf (cleanThreads s) p).nodes[i]?
        = some (nd (collapseCancelOwn hf (cleanThreads s) p).nodes i) := by
      rw [nd_of_getElem (List.getElem?_eq_getElem hspec.1)]
      exact List.getElem?_eq_getElem hspec.1
    simp only [hpar]
    by_cases hhit :
      (match locateNode (collapseCancelOwn hf (cleanThreads s) p).nodes
          (collapseCancelOwn hf (cleanThreads s) p).selectedPath with
        | some sn =>
          decide (i + 1 ≤ sn) &&
            decide (sn < collapseRunEnd (collapseCancelOwn hf (cleanThreads s) p).nodes i
              (nd (collapseCancelOwn hf (cleanThreads s) p).nodes i).nestLevel)
        | none => false) = true
    · rw [if_pos hhit]
      exact ⟨_, rfl⟩
    · rw [if_neg hhit]
      exact ⟨_, rfl⟩

theorem collapse_CanceledAt {hf : String → String} {s : DT} {p : String} {tid : Nat}
    {tk : Loader} (hlk : lookupK (hf p) (cleanThreads s).threadObjs = some tid)
    (htk : s.tasks[tid]? = some tk) :
    CanceledAt (startPathLoaderCollapse hf s p).1 tid := by
  obtain ⟨l, hl⟩ := collapse_tasks_foldl hf s p
  have h1 : CanceledAt (collapseCancelOwn hf (cleanThreads s) p) tid :=
    collapseCancelOwn_cancels hlk htk
  have h2 := @cancelFold_CanceledAt hf tid l _ h1
  obtain ⟨tk2, htk2, hc2⟩ := h2
  exact ⟨tk2, by rw [hl]; exact htk2, hc2⟩

theorem publishOp_canceled_pending {s : DT} {tid : Nat} {tk : Loader}
    (htk : s.tasks[tid]? = some tk) (hc : tk.canceled = true)
    (r : Option (List String)) :
    (publishOp s tid r).pendingNodes = s.pendingNodes := by
  simp only [publishOp, htk]
  by_cases ha : !tk.alive
  · rw [if_pos ha]
  · rw [if_neg ha, if_pos hc]

theorem publishOp_entryHeight (s : DT) (tid : Nat) (r : Option (List String)) :
    (publishOp s tid r).entryHeight = s.entryHeight := by
  simp only [publishOp]
  split
  · rfl
  · split
    · rfl
    · split <;> rfl

theorem publishOp_indentX (s : DT) (tid : Nat) (r : Option (List String)) :
    (publishOp s tid r).indentX = s.indentX := by
  simp only [publishOp]
  split
  · rfl
  · split
    · rfl
    · split <;> rfl

/-- Drain and sweep acts read and write only the node sequence, the queue
and the layout constants. -/
theorem drainSweep_nodes_eq (hf : String → String) :
    ∀ (acts : List Act), (∀ a ∈ acts, a = Act.drain ∨ a = Act.sweep) →
      ∀ (s1 s2 : DT), s1.nodes = s2.nodes → s1.pendingNodes = s2.pendingNodes →
        s1.entryHeight = s2.entryHeight → s1.indentX = s2.indentX →
        (applyActs hf acts s1).nodes = (applyActs hf acts s2).nodes := by
  intro acts
  induction acts with
  | nil => intro _ s1 s2 h1 _ _ _; exact h1
  | cons a rest ih =>
    intro hmem s1 s2 h1 h2 h3 h4
    have ha := hmem a (List.mem_cons_self a rest)
    have hrest : ∀ b ∈ rest, b = Act.drain ∨ b = Act.sweep :=
      fun b hb => hmem b (List.mem_cons_of_mem a hb)
    show (applyActs hf rest (applyAct hf s1 a)).nodes
      = (applyActs hf rest (applyAct hf s2 a)).nodes
    rcases ha with rfl | rfl
    · exact ih hrest _ _
        (by simp only [applyAct, addPendingNodes]; rw [h1, h2, h3, h4])
        (by simp only [applyAct, addPendingNodes])
        (by simp only [applyAct, addPendingNodes]; exact h3)
        (by simp only [applyAct, addPendingNodes]; exact h4)
    · exact ih hrest _ _
        (by simp only [applyAct, runDelNodes]; rw [h1])
        (by simp only [applyAct, runDelNodes]; rw [h2])
        (by simp only [applyAct, runDelNodes]; rw [h3])
        (by simp only [applyAct, runDelNodes]; rw [h4])

/-- **C3**: a `NodeLoader` consults its cancellation flag only at the
moment it is ready to publish: if the flag is set then nothing is pushed
to the result queue (the scan and cache write modelled inside
`publishOp`'s input happen regardless).  Consequently, collapsing a node
whose loader is registered and then letting that loader run to
completion publishes nothing, so any following drains and sweeps leave
the node sequence exactly as if the loader had never completed — the
cancelled subtree is never reintroduced. -/
theorem C3_cancellation_at_publish (hf : String → String) :
    (∀ (s : DT) (tid : Nat) (r : Option (List String)) (tk : Loader),
      s.tasks[tid]? = some tk → tk.canceled = true →
      (publishOp s tid r).pendingNodes = s.pendingNodes) ∧
    (∀ (s : DT) (p : String) (tid : Nat) (r : Option (List String)) (tk : Loader)
      (acts : List Act),
      lookupK (hf p) (cleanThreads s).threadObjs = some tid →
      s.tasks[tid]? = some tk →
      (∀ a ∈ acts, a = Act.drain ∨ a = Act.sweep) →
      (publishOp (startPathLoaderCollapse hf s p).1 tid r).pendingNodes
        = (startPathLoaderCollapse hf s p).1.pendingNodes ∧
      (applyActs hf acts (publishOp (startPathLoaderCollapse hf s p).1 tid r)).nodes
        = (applyActs hf acts (startPathLoaderCollapse hf s p).1).nodes) := by
  constructor
  · intro s tid r tk htk hc
    exact publishOp_canceled_pending htk hc r
  · intro s p tid r tk acts hlk htk hacts
    obtain ⟨tk2, htk2, hc2⟩ := collapse_CanceledAt hlk htk
    have hpend : (publishOp (startPathLoaderCollapse hf s p).1 tid r).pendingNodes
        = (startPathLoaderCollapse hf s p).1.pendingNodes :=
      publishOp_canceled_pending htk2 hc2 r
    refine ⟨hpend, ?_⟩
    exact drainSweep_nodes_eq hf acts hacts _ _
      (publishOp_nodes _ _ _) hpend (publishOp_entryHeight _ _ _) (publishOp_indentX _ _ _)

/-- Witness for C3: collapsing the expanding root of `c4s` and then
letting its loader publish adds nothing to the queue, and a following
drain yields the same nodes as without the publish. -/
theorem C3_cancellation_witness :
    (publishOp (startPathLoaderCollapse (fun x => x) c4s "/").1 0 (some ["/a"])).pendingNodes
      = (startPathLoaderCollapse (fun x => x) c4s "/").1.pendingNodes ∧
    (applyActs (fun x => x) [Act.drain]
        (publishOp (startPathLoaderCollapse (fun x => x) c4s "/").1 0 (some ["/a"]))).nodes
      = (applyActs (fun x => x) [Act.drain]
          (startPathLoaderCollapse (fun x => x) c4s "/").1).nodes :=
  (C3_cancellation_at_publish (fun x => x)).2 c4s "/" 0 (some ["/a"])
    { absPath := "/", canceled := false, alive := true } [Act.drain]
    (by decide) (by decide) (by decide)

/-- Witness for C4: expanding the already-expanding root of `c4s` is
rejected and leaves the node sequence, the task list and the queue
unchanged. -/
theorem C4_expand_reject_witness :
    (startPathLoaderExpand (fun x => x) c4s "/").2 = false ∧
    (startPathLoaderExpand (fun x => x) c4s "/").1.nodes = c4s.nodes ∧
    (startPathLoaderExpand (fun x => x) c4s "/").1.tasks = c4s.tasks ∧
    (startPathLoaderExpand (fun x => x) c4s "/").1.pendingNodes = c4s.pendingNodes :=
  ⟨by decide, (C4_expand_reject (fun x => x) c4s "/" (by decide)).2 (by decide)⟩

/-- **C5 (counterexample)**: on a frame whose content extent (50) is
smaller than its view extent (100), one downward `add_scroll_offset`
stores and returns the offset `50`, which lies outside the claimed
interval `[-(contentExtent - viewExtent), 0]`. -/
theorem C5_scroll_clamp_counterexample :
    ¬(-(((getContentHeight c5f : Int) : ℚ) - ((c5f.height : Int) : ℚ))
        ≤ (addScrollOffsetV c5f (-10)).2 ∧
      (addScrollOffsetV c5f (-10)).2 ≤ 0) := by
  have hch : getContentHeight c5f = 50 := by decide
  have hh : c5f.height = 100 := by decide
  have hv : (addScrollOffsetV c5f (-10)).2 = 50 := by
    simp only [addScrollOffsetV, scrollShift, hch, hh]
    norm_num [c5f]
  rintro ⟨_, h2⟩
  rw [hv] at h2
  norm_num at h2

/-- **C5 (amended)**: the offset stored and returned by
`add_scroll_offset` always lies between
`min(-(contentExtent - viewExtent), 0)` and
`max(-(contentExtent - viewExtent), 0)`; when the content extent is at
least the view extent this is the claimed interval
`[-(contentExtent - viewExtent), 0]`, and when the content extent is
smaller the offset lies in `[0, viewExtent - contentExtent]` instead.
For the horizontal axis this holds whenever the content-width query
succeeds (the frame has a non-scrollbar child). -/
theorem C5_scroll_clamp_amended (f : FrameM) (amount : Int) :
    (min (-(((getContentHeight f : Int) : ℚ) - ((f.height : Int) : ℚ))) 0
        ≤ (addScrollOffsetV f amount).2 ∧
      (addScrollOffsetV f amount).2
        ≤ max (-(((getContentHeight f : Int) : ℚ) - ((f.height : Int) : ℚ))) 0 ∧
      (addScrollOffsetV f amount).1.yScrollOffset = (addScrollOffsetV f amount).2) ∧
    (∀ cw : Int, getContentWidth f = some cw →
      ∃ v : ℚ, (addScrollOffsetH f amount).2 = some v ∧
        min (-((cw : ℚ) - ((f.width : Int) : ℚ))) 0 ≤ v ∧
        v ≤ max (-((cw : ℚ) - ((f.width : Int) : ℚ))) 0 ∧
        (addScrollOffsetH f amount).1.xScrollOffset = v) := by
  constructor
  · simp only [addScrollOffsetV]
    set raw : ℚ := f.yScrollOffset + scrollShift f amount with hraw
    set a : ℚ := -(((getContentHeight f : Int) : ℚ) - ((f.height : Int) : ℚ)) with ha
    by_cases h1 : raw > 0
    · rw [if_pos h1]
      exact ⟨min_le_right _ _, le_max_right _ _, trivial⟩
    · rw [if_neg h1]
      by_cases h2 : raw < a
      · rw [if_pos h2]
        exact ⟨min_le_left _ _, le_max_left _ _, trivial⟩
      · rw [if_neg h2]
        refine ⟨le_trans (min_le_left _ _) (not_lt.mp h2), ?_, trivial⟩
        exact le_trans (not_lt.mp h1) (le_max_right _ _)
  · intro cw hcw
    simp only [addScrollOffsetH, hcw]
    set raw : ℚ := f.xScrollOffset + scrollShift f amount with hraw
    set a : ℚ := -((cw : ℚ) - ((f.width : Int) : ℚ)) with ha
    by_cases h1 : raw > 0
    · rw [if_pos h1]
      exact ⟨0, rfl, min_le_right _ _, le_max_right _ _, rfl⟩
    · rw [if_neg h1]
      by_cases h2 : raw < a
      · rw [if_pos h2]
        exact ⟨a, rfl, min_le_left _ _, le_max_left _ _, rfl⟩
      · rw [if_neg h2]
        refine ⟨raw, rfl, le_trans (min_le_left _ _) (not_lt.mp h2), ?_, rfl⟩
        exact le_trans (not_lt.mp h1) (le_max_right _ _)

/-- Witness for the amended C5 on the horizontal axis of `c5f`. -/
theorem C5_scroll_clamp_witness :
    getContentWidth c5f = some 50 ∧
    (∃ v : ℚ, (addScrollOffsetH c5f 5).2 = some v ∧
      min (-(((50 : Int) : ℚ) - ((c5f.width : Int) : ℚ))) 0 ≤ v ∧
      v ≤ max (-(((50 : Int) : ℚ) - ((c5f.width : Int) : ℚ))) 0 ∧
      (addScrollOffsetH c5f 5).1.xScrollOffset = v) :=
  ⟨by decide, (C5_scroll_clamp_amended c5f 5).2 50 (by decide)⟩

/-- **C10**: for a frame whose children are all scrollbars (or absent),
the content-height query returns exactly the bottom padding while the
content-width query raises (`max()` on an empty sequence, the `none`
result) — the two content-extent queries are not symmetric at this
edge case. -/
theorem C10_content_extent_asymmetry (f : FrameM)
    (h : ∀ w ∈ f.children, w.isScrollBar = true) :
    getContentHeight f = f.paddingBottom ∧ getContentWidth f = none := by
  have hfil : f.children.filter (fun w => !w.isScrollBar) = [] := by
    rw [List.filter_eq_nil_iff]
    intro w hw
    rw [h w hw]
    simp
  unfold getContentHeight getContentWidth
  rw [hfil]
  simp

/-- Witness for C10 on a frame with one scrollbar child. -/
theorem C10_content_extent_witness :
    (∀ w ∈ c10f.children, w.isScrollBar = true) ∧
    getContentHeight c10f = c10f.paddingBottom ∧ getContentWidth c10f = none :=
  ⟨by decide, C10_content_extent_asymmetry c10f (by decide)⟩

/-- **C8**: `add_widget` fails with the duplicate-name error
(`FrameError` type 1) whenever the widget's name is already a child key,
with the already-parented error (type 2) whenever the widget already has
a parent (and no duplicate), the two errors are distinguishable, an
error is raised (never silently corrected) whenever either condition
holds, and otherwise the widget is registered under its name, appended
to the render order, and its centroid recorded. -/
theorem C8_add_widget (f : FrameReg) (w : WItem) :
    ((∃ kv ∈ f.childWidgets, kv.1 = w.name) → addWidget f w = Except.error (w.name, 1)) ∧
    (¬(∃ kv ∈ f.childWidgets, kv.1 = w.name) → w.hasParent = true →
      addWidget f w = Except.error (w.name, 2)) ∧
    (((w.name, 1) : String × Nat) ≠ ((w.name, 2) : String × Nat)) ∧
    ((∃ kv ∈ f.childWidgets, kv.1 = w.name) ∨ w.hasParent = true →
      ∃ er, addWidget f w = Except.error er) ∧
    (¬(∃ kv ∈ f.childWidgets, kv.1 = w.name) → w.hasParent = false →
      ∃ f2, addWidget f w = Except.ok f2 ∧
        f2.childWidgets = f.childWidgets ++ [(w.name, { w with hasParent := true })] ∧
        f2.renderZOrder = f.renderZOrder ++ [w.name] ∧
        f2.realPositions = f.realPositions ++ [(w.name, w.centerX, w.centerY)]) := by
  have hdup : (f.childWidgets.find? (fun kv => kv.1 == w.name)).isSome = true ↔
      ∃ kv ∈ f.childWidgets, kv.1 = w.name := by
    rw [List.find?_isSome]
    constructor
    · rintro ⟨kv, hkv, hp⟩
      exact ⟨kv, hkv, by simpa using hp⟩
    · rintro ⟨kv, hkv, hp⟩
      exact ⟨kv, hkv, by simpa using hp⟩
  have hNone : ¬(∃ kv ∈ f.childWidgets, kv.1 = w.name) →
      f.childWidgets.find? (fun kv => kv.1 == w.name) = none := by
    intro h
    cases hff : f.childWidgets.find? (fun kv => kv.1 == w.name) with
    | none => rfl
    | some kv => exact absurd (hdup.mp (by rw [hff]; rfl)) h
  refine ⟨?_, ?_, by simp, ?_, ?_⟩
  · intro h
    unfold addWidget
    rw [if_pos (hdup.mpr h)]
  · intro h hpar
    unfold addWidget
    rw [hNone h, hpar]
    simp
  · rintro (h | hpar)
    · exact ⟨(w.name, 1), by unfold addWidget; rw [if_pos (hdup.mpr h)]⟩
    · by_cases h2 : ∃ kv ∈ f.childWidgets, kv.1 = w.name
      · exact ⟨(w.name, 1), by unfold addWidget; rw [if_pos (hdup.mpr h2)]⟩
      · refine ⟨(w.name, 2), ?_⟩
        unfold addWidget
        rw [hNone h2, hpar]
        simp
  · intro h hpar
    refine ⟨{ childWidgets := f.childWidgets ++ [(w.name, { w with hasParent := true })],
              realPositions := f.realPositions ++ [(w.name, w.centerX, w.centerY)],
              scrollbarNames :=
                if w.isScrollBar then f.scrollbarNames ++ [w.name] else f.scrollbarNames,
              renderZOrder := f.renderZOrder ++ [w.name] }, ?_, rfl, rfl, rfl⟩
    unfold addWidget
    rw [hNone h, hpar]
    simp

/-- Witness for C8: adding a fresh unparented widget to an empty frame
succeeds and registers it. -/
theorem C8_add_widget_witness :
    ¬(∃ kv ∈ c8f.childWidgets, kv.1 = c8w.name) ∧ c8w.hasParent = false ∧
    (∃ f2, addWidget c8f c8w = Except.ok f2 ∧
      f2.childWidgets = c8f.childWidgets ++ [(c8w.name, { c8w with hasParent := true })] ∧
      f2.renderZOrder = c8f.renderZOrder ++ [c8w.name] ∧
      f2.realPositions = c8f.realPositions ++ [(c8w.name, c8w.centerX, c8w.centerY)]) :=
  ⟨by simp [c8f], rfl, (C8_add_widget c8f c8w).2.2.2.2 (by simp [c8f]) rfl⟩

/-- **C9**: writing a cache entry for a directory whose immediate
children are a file `A` and a subdirectory `B` (in either scan order)
and reading the rows back yields exactly `[B]` as the directory list:
file rows are excluded and directory rows are returned in written
order. -/
theorem C9_cache_roundtrip (A B : String) :
    loadFromCache (scanDirGenCache [(A, FKind.file), (B, FKind.directory)]).1
      = (true, [B]) ∧
    loadFromCache (scanDirGenCache [(B, FKind.directory), (A, FKind.file)]).1
      = (true, [B]) := by
  constructor <;>
    simp [scanDirGenCache, scanRows, loadFromCache, List.filterMap]

/-- The thumb clamp written with source branch order equals
`min (max raw 30) track` once the track is at least 30 long. -/
theorem clampThumb_eq (r t : ℚ) (ht : (30 : ℚ) ≤ t) :
    (if r > t then t else if r < 30 then 30 else r) = min (max r 30) t := by
  by_cases h1 : r > t
  · rw [if_pos h1, max_eq_left (le_trans ht h1.le), min_eq_right h1.le]
  · by_cases h2 : r < 30
    · rw [if_neg h1, if_pos h2, max_eq_right h2.le, min_eq_left ht]
    · rw [if_neg h1, if_neg h2, max_eq_left (not_lt.mp h2), min_eq_left (not_lt.mp h1)]

theorem offAxis_set_zero (par : FrameM) (v : Bool) :
    offAxis (setScrollOffset par 0 v) v = 0 := by
  cases v <;> simp [offAxis, setScrollOffset]

/-- **C6**: whenever `update_scrollbar_length` actually recomputes
(first run, resize, or changed content extent) and succeeds, on a bar
whose track is at least the 30-pixel minimum, the new thumb length is
`clamp(track / (content / view), 30, track) =
min (max (track / (content / view)) 30) track`; if the thumb fills the
track the parent's scroll offset on the bar's axis is forced to zero,
and otherwise the parent is left untouched. -/
theorem C6_scrollbar_geometry (fr rs : Bool) (sb : SBarM) (par : FrameM)
    (content : Int) (sb2 : SBarM) (par2 : FrameM)
    (hc : sbContentExtent sb par = some content)
    (hrun : fr = true ∨ rs = true ∨ content ≠ sb.contentHeight)
    (htrack : (30 : Int) ≤ sbTrackLength sb)
    (hres : updateScrollbarLength fr rs sb par = some (sb2, par2)) :
    sb2.thumbLength =
      min (max ((sbTrackLength sb : ℚ) / ((content : ℚ) / (sbViewExtent sb : ℚ))) 30)
        (sbTrackLength sb : ℚ) ∧
    (sb2.thumbLength = (sbTrackLength sb : ℚ) → offAxis par2 sb.vertical = 0) ∧
    (sb2.thumbLength ≠ (sbTrackLength sb : ℚ) → par2 = par) := by
  have hskip : ¬((!fr && !rs && (content == sb.contentHeight)) = true) := by
    rcases hrun with h | h | h <;> simp [h]
  simp only [updateScrollbarLength, hc] at hres
  rw [if_neg hskip] at hres
  by_cases hz : (decide (sbViewExtent sb = 0) || decide (content = 0)) = true
  · rw [if_pos hz] at hres
    exact Option.noConfusion hres
  · rw [if_neg hz] at hres
    have hout := Option.some.inj hres
    injection hout with hsb2 hpar2
    have ht : (30 : ℚ) ≤ (sbTrackLength sb : ℚ) := by exact_mod_cast htrack
    have hthumb : sb2.thumbLength =
        (if (sbTrackLength sb : ℚ) / ((content : ℚ) / (sbViewExtent sb : ℚ))
              > (sbTrackLength sb : ℚ) then (sbTrackLength sb : ℚ)
         else if (sbTrackLength sb : ℚ) / ((content : ℚ) / (sbViewExtent sb : ℚ))
              < 30 then 30
         else (sbTrackLength sb : ℚ) / ((content : ℚ) / (sbViewExtent sb : ℚ))) := by
      rw [← hsb2]
    have hpar : par2 = (if sb2.thumbLength = (sbTrackLength sb : ℚ)
          then setScrollOffset par 0 sb.vertical else par) := by
      rw [← hpar2, hthumb]
    refine ⟨?_, ?_, ?_⟩
    · rw [hthumb]
      exact clampThumb_eq _ _ ht
    · intro h
      rw [hpar, if_pos h, offAxis_set_zero]
    · intro h
      rw [hpar, if_neg h]

/-- Witness for C6: recomputing `c6sb` against `c6par` (first run)
yields thumb length 30, the clamp value, and leaves the parent alone. -/
theorem C6_scrollbar_witness :
    updateScrollbarLength true false c6sb c6par = some (c6sb2, c6par) ∧
    (c6sb2.thumbLength =
      min (max ((sbTrackLength c6sb : ℚ) / (((200 : Int) : ℚ) / (sbViewExtent c6sb : ℚ))) 30)
        (sbTrackLength c6sb : ℚ) ∧
     (c6sb2.thumbLength = (sbTrackLength c6sb : ℚ) → offAxis c6par c6sb.vertical = 0) ∧
     (c6sb2.thumbLength ≠ (sbTrackLength c6sb : ℚ) → c6par = c6par)) := by
  have hc : sbContentExtent c6sb c6par = some 200 := by decide
  have hres : updateScrollbarLength true false c6sb c6par = some (c6sb2, c6par) := by
    simp only [updateScrollbarLength, hc]
    norm_num [c6sb, c6sb2, c6par, sbTrackLength, sbViewExtent, setScrollOffset]
  exact ⟨hres,
    C6_scrollbar_geometry true false c6sb c6par 200 c6sb2 c6par hc (Or.inl rfl)
      (by decide) hres⟩

/-- The `collide` accumulation loop of `Frame.update` is an `any` over
the children, seeded by `mouse_blocked`. -/
theorem foldl_or_any {α : Type} (l : List α) (g : α → Bool) (b : Bool) :
    l.foldl (fun acc c => acc || g c) b = (b || l.any g) := by
  induction l generalizing b with
  | nil => simp
  | cons x xs ih => simp [List.foldl_cons, ih, Bool.or_assoc]

/-- **C7**: for every `Frame.update` call with the pointer inside the
window, the shared occlusion counter is bumped by exactly one iff the
frame is live (its z level equals the counter and its bounds contain
the pointer) and no child reported a collision, and is returned
unchanged otherwise; consequently, for two fully overlapping frames at
z levels 1 and 2 with the counter at 1, the z-2 frame is not live and
reports no collision while the z-1 frame is live and consumes the
pointer (reports the collision, leaving the counter at 1). -/
theorem C7_occlusion_gating :
    (∀ (f : FrameC) (m : CursorM), m.leave = false →
      (((frameUpdateC f m).1 = m.zIndex + 1) ↔ (frameLive f m ∧ ¬childReported f m)) ∧
      ((frameUpdateC f m).1 = m.zIndex + 1 ∨ (frameUpdateC f m).1 = m.zIndex)) ∧
    (frameUpdateC c7f2 c7m = (1, false) ∧ frameUpdateC c7f1 c7m = (1, true) ∧
      frameLive c7f1 c7m ∧ ¬frameLive c7f2 c7m) := by
  constructor
  · intro f m hlv
    cases hbq : (f.zIndex == m.zIndex) with
    | false =>
      have hnl : ¬frameLive f m := by
        rintro ⟨hz, -⟩
        simp [hz] at hbq
      have hres : (frameUpdateC f m).1 = m.zIndex := by
        simp [frameUpdateC, hbq]
      refine ⟨?_, Or.inr hres⟩
      rw [hres]
      constructor
      · intro h
        omega
      · rintro ⟨hl, -⟩
        exact absurd hl hnl
    | true =>
      have hzeq : f.zIndex = m.zIndex := by simpa using hbq
      cases hcp : collidepoint f.rect m.x m.y with
      | false =>
        have hnl : ¬frameLive f m := by
          rintro ⟨-, hcp2⟩
          rw [hcp] at hcp2
          exact Bool.noConfusion hcp2
        have hres : (frameUpdateC f m).1 = m.zIndex := by
          simp [frameUpdateC, hbq, hcp]
        refine ⟨?_, Or.inr hres⟩
        rw [hres]
        constructor
        · intro h
          omega
        · rintro ⟨hl, -⟩
          exact absurd hl hnl
      | true =>
        have hlive : frameLive f m := ⟨hzeq, hcp⟩
        cases hb : (f.children.filter fun c => c.isScrollBar).any
            (fun c => collidepoint c.rect (m.x - f.x) (m.y - f.y)) with
        | true =>
          have hcr : childReported f m := by
            left
            rcases List.any_eq_true.mp hb with ⟨c, hcmem, hcp2⟩
            rcases List.mem_filter.mp hcmem with ⟨hmem, hsb⟩
            exact ⟨c, hmem, by simpa using hsb, by simpa using hcp2⟩
          have hres : (frameUpdateC f m).1 = m.zIndex := by
            simp [frameUpdateC, hbq, hcp, hlv, cursorSetPos, cursorRect,
              foldl_or_any, hb]
          refine ⟨?_, Or.inr hres⟩
          rw [hres]
          constructor
          · intro h
            omega
          · rintro ⟨-, hncr⟩
            exact absurd hcr hncr
        | false =>
          have hall : ∀ c ∈ f.children, c.isScrollBar = true →
              collidepoint c.rect (m.x - f.x) (m.y - f.y) = false := by
            intro c hcm hsb
            by_contra hcontra
            rw [Bool.not_eq_false] at hcontra
            have hany : (f.children.filter fun c => c.isScrollBar).any
                (fun c => collidepoint c.rect (m.x - f.x) (m.y - f.y)) = true :=
              List.any_eq_true.mpr ⟨c, List.mem_filter.mpr ⟨hcm, by simpa using hsb⟩, hcontra⟩
            rw [hb] at hany
            exact Bool.noConfusion hany
          cases hc2 : f.children.any (fun c => collideRect c.rect
              { x := m.x - f.x - f.xScrollOffset, y := m.y - f.y - f.yScrollOffset,
                w := 1, h := 1 }) with
          | true =>
            have hcr : childReported f m := by
              rcases List.any_eq_true.mp hc2 with ⟨c, hcm, hcc⟩
              refine Or.inr ⟨hall, c, hcm, ?_⟩
              simpa [cursorSetPos, cursorRect, hlv] using hcc
            have hres : (frameUpdateC f m).1 = m.zIndex := by
              simp [frameUpdateC, hbq, hcp, hlv, cursorSetPos, cursorRect,
                foldl_or_any, hb, hc2]
            refine ⟨?_, Or.inr hres⟩
            rw [hres]
            constructor
            · intro h
              omega
            · rintro ⟨-, hncr⟩
              exact absurd hcr hncr
          | false =>
            have hncr : ¬childReported f m := by
              rintro (⟨c, hcm, hsb, hcc⟩ | ⟨-, c, hcm, hcc⟩)
              · have hmiss := hall c hcm hsb
                rw [hcc] at hmiss
                exact Bool.noConfusion hmiss
              · have hany : f.children.any (fun c => collideRect c.rect
                    { x := m.x - f.x - f.xScrollOffset, y := m.y - f.y - f.yScrollOffset,
                      w := 1, h := 1 }) = true :=
                  List.any_eq_true.mpr
                    ⟨c, hcm, by simpa [cursorSetPos, cursorRect, hlv] using hcc⟩
                rw [hc2] at hany
                exact Bool.noConfusion hany
            have hres : (frameUpdateC f m).1 = m.zIndex + 1 := by
              simp [frameUpdateC, hbq, hcp, hlv, cursorSetPos, cursorRect,
                foldl_or_any, hb, hc2]
            exact ⟨⟨fun _ => ⟨hlive, hncr⟩, fun _ => hres⟩, Or.inl hres⟩
  · refine ⟨by decide, by decide, ?_, ?_⟩
    · exact ⟨by decide, by decide⟩
    · rintro ⟨h, -⟩
      exact absurd h (by decide)

/-- Witness for C7 at the two-frame fixture: with the pointer inside the
window, the occlusion iff holds for the live lower frame. -/
theorem C7_occlusion_witness :
    c7m.leave = false ∧
    (((frameUpdateC c7f1 c7m).1 = c7m.zIndex + 1) ↔
      (frameLive c7f1 c7m ∧ ¬childReported c7f1 c7m)) :=
  ⟨rfl, (C7_occlusion_gating.1 c7f1 c7m rfl).1⟩
